import Mathlib

/-!
Verification of the VAST declaration-lowering core (CodeGenDeclVisitor.hpp,
Util/Pipeline.hpp) against its natural-language specification.

The C++ sources are shallowly embedded: each visitor is translated to a Lean
function over explicit state; AST declarations, IR operations and symbol
tables become inductive types, association lists and scope chains.  Opaque
identities (operations, values, declarations) are represented by natural
numbers dispensed from a fresh counter, so "identity equality" of IR entities
is equality of these identifiers.
-/

set_option maxRecDepth 4096

namespace VastProof

/-! ## Terminator synthesis (emit_function_body / emit_function_terminator)

Embeds the body-finishing logic of `VisitFunctionLikeDecl`
(CodeGenDeclVisitor.hpp:354-426): the `is_terminator` predicate, the
`emit_function_terminator` lambda, and the trailing-scope descent loop
(`next_scope` / `process_scope`) that decides where a synthesized terminator
is inserted. -/

namespace Term

/-- Source-level return types, as queried by `decl->getReturnType()->isVoidType()`. -/
inductive Ty where
  | void
  | int
  | other
deriving DecidableEq, Repr

/-- Values appearing as operands of return operations: `constant(loc)` (the
void value), `constant(loc, ty, apsint(0))` (zero of a result type), or any
other lowered value. -/
inductive RVal where
  | voidV
  | zeroOf (t : Ty)
  | someVal
deriving DecidableEq, Repr

/-- Operations that can occur in a function body region.  `scopeOp` is
`core::ScopeOp`, whose body region is a list of blocks; `hlReturn` is
`hl::ReturnOp` (special-cased by `is_terminator` via `isa`); `implicitReturn`
is `core::ImplicitReturnOp`; `otherTerminator` stands for any further op with
the `IsTerminator` trait; `plainOp` is any non-terminator, non-scope op. -/
inductive Op where
  | hlReturn (v : RVal)
  | implicitReturn (v : RVal)
  | unreachableOp
  | otherTerminator
  | plainOp
  | scopeOp (body : List (List Op))

/-- A block is a list of operations; a region is a list of blocks
(mlir `Region::getBlocks`). -/
abbrev Block := List Op

abbrev Region' := List Block

/-- `is_terminator` from `VisitFunctionLikeDecl`:
`op.hasTrait<IsTerminator>() || isa<hl::ReturnOp>(op)`. -/
def is_terminator : Op → Bool
  | .hlReturn _ => true
  | .implicitReturn _ => true
  | .unreachableOp => true
  | .otherTerminator => true
  | .plainOp => false
  | .scopeOp _ => false

/-- The function data consulted when synthesizing a terminator: the declared
return type and `decl->isMain()`. -/
structure FnInfo where
  retTy : Ty
  isMain : Bool
deriving DecidableEq, Repr

/-- `emit_function_terminator` (CodeGenDeclVisitor.hpp:354-369): void return
type gives `core::ImplicitReturnOp` of the void value; otherwise `main` gets
`hl::ReturnOp` of zero of the result type; any other non-void function gets
`hl::UnreachableOp`. -/
def emit_function_terminator (f : FnInfo) : Op :=
  if f.retTy = Ty.void then
    Op.implicitReturn RVal.voidV
  else if f.isMain then
    Op.hlReturn (RVal.zeroOf f.retTy)
  else
    Op.unreachableOp

/-- Last operation of the last block of a region (`ops.back()` where
`ops = fn_blocks.back().getOperations()`). -/
def lastOp? (r : Region') : Option Op :=
  ((r.getLast?).getD []).getLast?

/-- Append an operation at the end of the last block of a region (the effect
of creating an op with the insertion point at `set_insertion_point_to_end` of
that block): all blocks but the last are kept, the op goes at the end of the
last block. -/
def appendLast (r : Region') (op : Op) : Region' :=
  r.dropLast ++ [(r.getLast?.getD []) ++ [op]]

/-- The terminator-synthesis phase at the end of `emit_function_body`
(CodeGenDeclVisitor.hpp:387-425).  The while loop over
`next_scope`/`process_scope` descends into a trailing `core::ScopeOp` exactly
when the scope's parent region has one block holding exactly one operation
(`parent->hasOneBlock() && parent->back().begin() == std::prev(parent->back().end())`),
moving the insertion point to the end of the scope's body; it stops (setting
`last_op` to null) otherwise.  Afterwards, if the region is empty, or the
descent nulled `last_op`, or the found op is not a terminator,
`emit_function_terminator` is created at the current insertion point. -/
def finish_body (f : FnInfo) : Region' → Region'
  | [[Op.scopeOp inner]] => [[Op.scopeOp (finish_body f inner)]]
  | r =>
    match lastOp? r with
    | some op => if is_terminator op then r else appendLast r (emit_function_terminator f)
    | none => appendLast r (emit_function_terminator f)

/-- The "true" last operation: the last op of the last block, found after
descending through trailing scopes exactly as the `next_scope` /
`process_scope` loop does. -/
def true_last_op : Region' → Option Op
  | [[Op.scopeOp inner]] => true_last_op inner
  | r => lastOp? r

/-- Whether the true last operation exists and is a terminator. -/
def true_last_terminated (r : Region') : Bool :=
  match true_last_op r with
  | some op => is_terminator op
  | none => false

/-- Insert an op at the innermost position selected by the trailing-scope
descent: inside the innermost single-single trailing scope, at the end of its
last block. -/
def insert_at_true_end (op : Op) : Region' → Region'
  | [[Op.scopeOp inner]] => [[Op.scopeOp (insert_at_true_end op inner)]]
  | r => appendLast r op

/-- A region that consists of exactly one block holding exactly one
operation, that operation being a scope: the shape on which the descent loop
recurses. -/
def is_single_scope : Region' → Bool
  | [[Op.scopeOp _]] => true
  | _ => false

/-- Wrap a region `n` times in a single-block, single-op trailing scope. -/
def nest : Nat → Region' → Region'
  | 0, r => r
  | n + 1, r => [[Op.scopeOp (nest n r)]]

end Term

/-! ## Scoped symbol tables and `declare`

Declarations and IR entities are identified by numeric ids.  A scope is an
association list from declaration id to entity id; the symbol table is a
chain of scopes, innermost first (llvm::ScopedHashTable with
ScopedHashTableScope push/pop). -/

namespace Decls

abbrev Scope := List (Nat × Nat)

abbrev Chain := List Scope

/-- Association-list lookup by key (leftmost binding wins, matching insertion
order into a map where the newest binding shadows). -/
def alookup : List (Nat × β) → Nat → Option β
  | [], _ => none
  | (k, v) :: rest, d => if k = d then some v else alookup rest d

/-- Name resolution over the scope chain: the innermost scope's binding
wins. -/
def chain_lookup : Chain → Nat → Option Nat
  | [], _ => none
  | s :: rest, d =>
    match alookup s d with
    | some e => some e
    | none => chain_lookup rest d

/-- Bind a declaration to an entity in the innermost scope. -/
def chain_bind : Chain → Nat → Nat → Chain
  | [], d, e => [[(d, e)]]
  | s :: rest, d, e => ((d, e) :: s) :: rest

/-- Modelled from the spec: `CodeGenContext::declare(decl, builder)` (§4.1);
the CodeGenContext source is not under src/.  "If `decl` already has a
binding in the current table chain, return it; otherwise invoke `builder()`
to construct the IR entity, bind it, and return it."  The builder threads a
state `σ` (in the source, the MLIR builder with its fresh-operation
supply). -/
def declare {σ : Type} (c : Chain) (st : σ) (d : Nat) (build : σ → Nat × σ) :
    Nat × Chain × σ :=
  match chain_lookup c d with
  | some e => (e, c, st)
  | none =>
    let p := build st
    (p.1, chain_bind c d p.1, p.2)

/-- The parts of a `clang::VarDecl` consulted by `VisitVarDecl`: its identity
and whether it carries an initializer.  (Type, name, storage classes and
location only parametrize the created op's payload and play no role in
binding identity.) -/
structure VarDecl where
  id : Nat
  hasInit : Bool

structure VarState where
  vars : Chain
  fresh : Nat
  initFills : Nat
deriving DecidableEq

/-- `VisitVarDecl` (CodeGenDeclVisitor.hpp:499-542): `context().declare(decl,
builder)`, the builder freezing a new `hl::VarDeclOp`; afterwards, if the
declaration has an initializer, the op's initializer region is populated (a
separate second step, because the initializer may reference the variable
itself). -/
def visitVarDecl (s : VarState) (d : VarDecl) : Nat × VarState :=
  let r := declare s.vars s.fresh d.id (fun fr => (fr, fr + 1))
  let s1 : VarState := ⟨r.2.1, r.2.2, s.initFills⟩
  if d.hasInit then (r.1, { s1 with initFills := s1.initFills + 1 })
  else (r.1, s1)

structure DeclState where
  table : Chain
  fresh : Nat
deriving DecidableEq

/-- `VisitTypedefDecl`, `VisitLabelDecl` and `VisitEnumConstantDecl`
(CodeGenDeclVisitor.hpp:578-619, 676-690) are all of the form
`context().declare(decl, builder)` with a builder that freezes one new
operation; only the op kind and payload differ. -/
def visit_via_declare (s : DeclState) (d : Nat) : Nat × DeclState :=
  let r := declare s.table s.fresh d (fun fr => (fr, fr + 1))
  (r.1, ⟨r.2.1, r.2.2⟩)

/-- The parts of a function-like declaration consulted by
`VisitFunctionLikeDecl`: the mangled name and whether this visit is a
definition. -/
structure FuncDecl where
  mangled : Nat
  isDefinition : Bool

structure FnState where
  funcs : List (Nat × Nat)
  withBody : List Nat
  emissions : Nat
  fresh : Nat
deriving DecidableEq

/-- `context().lookup_function(mangled, false)`: consult the module-level
global value table. -/
def lookup_function (s : FnState) (m : Nat) : Option Nat := alookup s.funcs m

/-- `VisitFunctionLikeDecl` (CodeGenDeclVisitor.hpp:332-459): look up the
mangled name; if absent, `context().declare(mangled, builder)` creates a new
`hl::FuncOp` header with private visibility; a non-definition visit returns
it; a definition visit upgrades visibility (re-setting the same
linkage-derived visibility, omitted here) and runs `emit_function_body` only
when the function is still empty (`fn.empty()`).  `withBody` records
functions whose region is non-empty (emit begins with `addEntryBlock`), and
`emissions` counts `emit_function_body` runs. -/
def visitFunctionLikeDecl (s : FnState) (d : FuncDecl) : Nat × FnState :=
  let pr :=
    match lookup_function s d.mangled with
    | some f => (f, s)
    | none =>
      (s.fresh, { s with funcs := (d.mangled, s.fresh) :: s.funcs,
                         fresh := s.fresh + 1 })
  if d.isDefinition = false then pr
  else if pr.1 ∈ pr.2.withBody then pr
  else (pr.1, { pr.2 with withBody := pr.1 :: pr.2.withBody,
                          emissions := pr.2.emissions + 1 })

end Decls

/-! ## Tag / enum completion protocol

Embeds `VisitEnumDecl` (CodeGenDeclVisitor.hpp:630-674) together with the
enumerator visits it triggers, and `make_record_decl`
(CodeGenDeclVisitor.hpp:709-756). -/

namespace Tags

open Decls (alookup)

/-- The parts of a `clang::EnumDecl` consulted by `VisitEnumDecl`: identity,
the chain of previous declarations (nearest first, `getPreviousDecl`),
completeness, the lowered integer type (`visit(decl->getIntegerType())`), and
the enumerator declarations in declaration order. -/
structure EnumDecl where
  id : Nat
  prevs : List Nat
  complete : Bool
  intType : Nat
  enumerators : List Nat

/-- An `hl::EnumDeclOp` as mutated by the completion protocol: the optional
underlying integer type and the ops of the constants region, in order. -/
structure EnumEnt where
  type : Option Nat
  constants : List Nat
deriving DecidableEq

structure EnumState where
  enumdecls : List (Nat × Nat)
  enumconsts : List (Nat × Nat)
  ents : List (Nat × EnumEnt)
  fresh : Nat
deriving DecidableEq

/-- Rewrite the payload of entity `e` in the module, in place. -/
def update_ent (ents : List (Nat × EnumEnt)) (e : Nat) (f : EnumEnt → EnumEnt) :
    List (Nat × EnumEnt) :=
  ents.map (fun p => if p.1 = e then (p.1, f p.2) else p)

/-- `VisitEnumConstantDecl` over a list of enumerators with the insertion
point inside an enum's constants region: each constant goes through
`context().declare(con, builder)`, so an already-bound enumerator returns its
existing op and inserts nothing, while an unbound one creates a fresh
`hl::EnumConstantOp` at the insertion point.  Returns the ops inserted at
this point, in order, together with the updated state. -/
def visit_enum_consts (s : EnumState) : List Nat → List Nat × EnumState
  | [] => ([], s)
  | c :: rest =>
    match alookup s.enumconsts c with
    | some _ => visit_enum_consts s rest
    | none =>
      let op := s.fresh
      let s1 : EnumState :=
        { s with enumconsts := (c, op) :: s.enumconsts, fresh := s.fresh + 1 }
      let r := visit_enum_consts s1 rest
      (op :: r.1, r.2)

/-- The walk `while (prev) { if (auto prev_op = enumdecls.lookup(prev)) ...;
prev = prev->getPreviousDecl(); }`: first previous declaration that has an IR
entity. -/
def find_prev_ent (tbl : List (Nat × Nat)) : List Nat → Option Nat
  | [] => none
  | p :: rest =>
    match alookup tbl p with
    | some e => some e
    | none => find_prev_ent tbl rest

/-- The `context().declare(decl, builder)` tail of `VisitEnumDecl`
(CodeGenDeclVisitor.hpp:653-674): an incomplete declaration builds a forward
`hl::EnumDeclOp` with only a name; a complete one builds the op with its
integer type and a constants region populated by visiting the
enumerators. -/
def enum_declare (s : EnumState) (d : EnumDecl) : Option Nat × EnumState :=
  match alookup s.enumdecls d.id with
  | some e => (some e, s)
  | none =>
    if d.complete = false then
      (some s.fresh,
        { s with enumdecls := (d.id, s.fresh) :: s.enumdecls,
                 ents := (s.fresh, ⟨none, []⟩) :: s.ents,
                 fresh := s.fresh + 1 })
    else
      let e := s.fresh
      let s1 : EnumState :=
        { s with enumdecls := (d.id, e) :: s.enumdecls,
                 ents := (e, ⟨some d.intType, []⟩) :: s.ents,
                 fresh := s.fresh + 1 }
      let r := visit_enum_consts s1 d.enumerators
      let upd := fun en => { en with constants := r.1 ++ en.constants }
      (some e, { r.2 with ents := update_ent r.2.ents e upd })

/-- `prev_op.setType(visit(decl->getIntegerType()))`: set the entity's
underlying integer type. -/
def set_int_type (d : EnumDecl) : EnumEnt → EnumEnt :=
  fun en => { en with type := some d.intType }

/-- Insert ops at the start of the constants region
(`set_insertion_point_to_start(getConstants().front())`). -/
def prepend_consts (cs : List Nat) : EnumEnt → EnumEnt :=
  fun en => { en with constants := cs ++ en.constants }

/-- The state with entity `pop`'s type set in place. -/
def typed_state (s : EnumState) (d : EnumDecl) (pop : Nat) : EnumState :=
  { s with ents := update_ent s.ents pop (set_int_type d) }

/-- The in-place mutation of a previously declared forward enum entity
(CodeGenDeclVisitor.hpp:640-647): `prev_op.setType(visit(decl->getIntegerType()))`,
then with the insertion point at the start of the constants region's front
block, visit every enumerator — the ops created land as a group before the
existing constants, in declaration order. -/
def complete_state (s : EnumState) (d : EnumDecl) (pop : Nat) : EnumState :=
  let r := visit_enum_consts (typed_state s d pop) d.enumerators
  { r.2 with ents := update_ent r.2.ents pop (prepend_consts r.1) }

/-- The enumerator ops inserted by the in-place completion, in order. -/
def inserted_consts (s : EnumState) (d : EnumDecl) (pop : Nat) : List Nat :=
  (visit_enum_consts (typed_state s d pop) d.enumerators).1

/-- `VisitEnumDecl` (CodeGenDeclVisitor.hpp:630-674).  A non-first
declaration that is incomplete returns the binding of its immediate previous
declaration.  A non-first complete definition walks the previous-declaration
chain; if a prior declaration already has an IR entity, that same entity is
mutated in place (`complete_state`) and returned.  Otherwise the declare tail
runs. -/
def visitEnumDecl (s : EnumState) (d : EnumDecl) : Option Nat × EnumState :=
  match d.prevs with
  | prev :: _ =>
    if d.complete = false then
      (alookup s.enumdecls prev, s)
    else
      match find_prev_ent s.enumdecls d.prevs with
      | some pop => (some pop, complete_state s d pop)
      | none => enum_declare s d
  | [] => enum_declare s d

/-- The parts of a record declaration consulted by `make_record_decl`. -/
structure RecordDecl where
  id : Nat
  complete : Bool

structure RecState where
  recdecls : List (Nat × Nat)
  fresh : Nat
  created : List Nat
deriving DecidableEq

/-- `make_record_decl` (CodeGenDeclVisitor.hpp:709-756): an incomplete
declaration goes through `context().declare(decl, builder)` producing a
forward `hl::TypeDeclOp`; a complete definition unconditionally makes a fresh
record op (`hl::StructDeclOp` / `UnionDeclOp` / `ClassDeclOp` /
`CxxStructDeclOp`) with its members built by visiting the children — no
previous declaration is consulted, no existing entity is looked up or
mutated.  `created` logs every op this visitor makes, in order. -/
def make_record_decl (s : RecState) (d : RecordDecl) : Nat × RecState :=
  if d.complete = false then
    match alookup s.recdecls d.id with
    | some e => (e, s)
    | none =>
      (s.fresh, ⟨(d.id, s.fresh) :: s.recdecls, s.fresh + 1,
        s.created ++ [s.fresh]⟩)
  else
    (s.fresh, { s with fresh := s.fresh + 1, created := s.created ++ [s.fresh] })

end Tags

/-! ## Conflicting-definition diagnosis

Embeds `record_conflicting_definition` and the duplicate-definition check of
`get_or_create_vast_function` (CodeGenDeclVisitor.hpp:136-138, 167-182). -/

namespace Diag

/-- A `clang::GlobalDecl` as used for deduplication: the declaration node
(with ctor/dtor kind folded into the identity), plus whether
`glob.getCanonicalDecl().getDecl()` is non-null. -/
structure GD where
  declId : Nat
  hasCanonical : Bool
deriving DecidableEq

/-- The two diagnostics of the pair: `err_duplicate_mangled_name` at the
offending declaration and `note_previous_definition` at the representative
prior declaration. -/
inductive DiagKind where
  | duplicateMangledName
  | previousDefinition
deriving DecidableEq

/-- The diagnostics sink log: each report is (kind, triggering GlobalDecl,
mangled name), in emission order. -/
structure DiagState where
  diagnosed : List GD
  reports : List (DiagKind × GD × Nat)
deriving DecidableEq

/-- `record_conflicting_definition` (CodeGenDeclVisitor.hpp:136-138):
`diagnosed_conflicting_definitions.insert(glob).second` — true exactly when
`glob` was not yet in the set, which is extended by the insertion. -/
def record_conflicting_definition (s : DiagState) (g : GD) : Bool × DiagState :=
  if g ∈ s.diagnosed then (false, s)
  else (true, { s with diagnosed := g :: s.diagnosed })

/-- The duplicate-definition check of `get_or_create_vast_function`
(CodeGenDeclVisitor.hpp:167-182), reached when an entity for the mangled name
already exists: if the request is for a definition and the existing function
already has a body, and the mangler knows a representative prior declaration
for the name, and the canonical declaration is present, then
`record_conflicting_definition(glob)` decides whether the diagnostic pair is
emitted (the note's location is the representative's; the log indexes both
reports by the triggering GlobalDecl and the name). -/
def diagnose_duplicate (s : DiagState) (g : GD) (name : Nat)
    (forDefinition fnHasBody hasRepresentative : Bool) : DiagState :=
  if forDefinition && fnHasBody then
    if hasRepresentative then
      if g.hasCanonical then
        let r := record_conflicting_definition s g
        if r.1 then
          { r.2 with reports := r.2.reports ++
              [(DiagKind.duplicateMangledName, g, name),
               (DiagKind.previousDefinition, g, name)] }
        else r.2
      else s
    else s
  else s

/-- One resolver invocation that found an existing entity. -/
structure Invocation where
  g : GD
  name : Nat
  forDefinition : Bool
  fnHasBody : Bool
  hasRepresentative : Bool

def run_diagnose (s : DiagState) : List Invocation → DiagState
  | [] => s
  | i :: rest =>
    run_diagnose
      (diagnose_duplicate s i.g i.name i.forDefinition i.fnHasBody i.hasRepresentative)
      rest

/-- Number of `err_duplicate_mangled_name` reports triggered by `g`. -/
def err_count (s : DiagState) (g : GD) : Nat :=
  (s.reports.filter
    (fun r => decide (r.1 = DiagKind.duplicateMangledName ∧ r.2.1 = g))).length

/-- Number of `note_previous_definition` reports triggered by `g`. -/
def note_count (s : DiagState) (g : GD) : Nat :=
  (s.reports.filter
    (fun r => decide (r.1 = DiagKind.previousDefinition ∧ r.2.1 = g))).length

/-- Number of `err_duplicate_mangled_name` reports for a mangled name. -/
def err_count_name (s : DiagState) (n : Nat) : Nat :=
  (s.reports.filter
    (fun r => decide (r.1 = DiagKind.duplicateMangledName ∧ r.2.2 = n))).length

end Diag

/-! ## Deferred emission

Embeds `is_defaulted_method` and the `emit.defer` tail of
`get_or_create_vast_function` (CodeGenDeclVisitor.hpp:94-101, 230-278). -/

namespace Defer

/-- A function redeclaration node, as consulted by the record-lexical walk:
`isa<clang::CXXRecordDecl>(getLexicalDeclContext())`,
`doesThisDeclarationHaveABody()`, and the fields read by
`is_defaulted_method`. -/
structure FD where
  id : Nat
  lexicallyInRecord : Bool
  hasBody : Bool
  defaulted : Bool
  isCxxMethod : Bool
  copyAssign : Bool
  moveAssign : Bool

/-- `is_defaulted_method` (CodeGenDeclVisitor.hpp:94-101): a defaulted C++
method that is a copy- or move-assignment operator. -/
def is_defaulted_method (f : FD) : Bool :=
  f.defaulted && f.isCxxMethod && (f.copyAssign || f.moveAssign)

structure DeferState where
  deferred_decls : List (Nat × Nat)
  to_emit : List Nat
  default_methods : List Nat
deriving DecidableEq

/-- Map erasure of the binding of a key (`deferred.erase(ddi)`). -/
def erase_key : List (Nat × Nat) → Nat → List (Nat × Nat)
  | [], _ => []
  | (k, v) :: rest, m => if k = m then rest else (k, v) :: erase_key rest m

/-- The record-lexical redeclaration walk (CodeGenDeclVisitor.hpp:263-276):
from `getMostRecentDecl()` backwards through `getPreviousDecl()`, the first
declaration lexically inside a record that has a body is queued — on the
default-methods queue if it is a defaulted copy/move assignment
(`add_default_methods_to_emit`), on the to-emit queue otherwise
(`add_deferred_decl_to_emit`) — then the walk breaks. -/
def walk_redecls (s : DeferState) : List FD → DeferState
  | [] => s
  | f :: rest =>
    if f.lexicallyInRecord then
      if f.hasBody then
        if is_defaulted_method f then
          { s with default_methods := s.default_methods ++ [f.id] }
        else
          { s with to_emit := s.to_emit ++ [f.id] }
      else walk_redecls s rest
    else walk_redecls s rest

/-- The `emit.defer` tail of `get_or_create_vast_function`
(CodeGenDeclVisitor.hpp:230-278), reached only on the creation path (no
entity existed for the mangled name): a pending `deferred_decls` entry for
the name is promoted to the to-emit queue and erased from pending; otherwise,
with C++ enabled and a declaration at hand (`redecls` is its redeclaration
chain, most recent first), the record-lexical walk runs. -/
def defer_step (s : DeferState) (mangled : Nat) (cpp : Bool)
    (redecls : Option (List FD)) : DeferState :=
  match Decls.alookup s.deferred_decls mangled with
  | some d =>
    { s with to_emit := s.to_emit ++ [d],
             deferred_decls := erase_key s.deferred_decls mangled }
  | none =>
    match redecls with
    | some rds => if cpp then walk_redecls s rds else s
    | none => s

end Defer

/-! ## Function parameters: entry block and parameter references

Embeds `declare_function_params` and the entry-block setup of
`emit_function_body` (CodeGenDeclVisitor.hpp:344-352, 371-384), and
`VisitParmVarDecl` (CodeGenDeclVisitor.hpp:544-549). -/

namespace Params

open Decls (Chain chain_lookup chain_bind)

/-- Modelled from the spec: type lowering (§6) is an external pure function
from source types to IR types, and `visit_function_type` — outside src/ —
builds the IR function type with one lowered input per declared parameter, in
order. -/
def function_inputs (lowerTy : Nat → Nat) (params : List Nat) : List Nat :=
  params.map lowerTy

/-- Modelled from the spec: `fn.addEntryBlock()` (MLIR library) creates the
entry block with one block argument per function-type input, of that type, in
order; argument values are fresh, here numbered from `base`.  Returns
(value, type) pairs. -/
def addEntryBlock (inputs : List Nat) (base : Nat) : List (Nat × Nat) :=
  match inputs with
  | [] => []
  | t :: rest => (base, t) :: addEntryBlock rest (base + 1)

/-- `declare_function_params` (CodeGenDeclVisitor.hpp:344-352):
`llvm::zip(decl->parameters(), entry->getArguments())`, binding each
parameter declaration to the entry-block argument value at the same position
through `context().declare(arg, mlir_value(earg))`. -/
def declare_function_params (params : List Nat) (args : List Nat) (c : Chain) :
    Chain :=
  (params.zip args).foldl (fun ch pa => chain_bind ch pa.1 pa.2) c

structure ParmState where
  vars : Chain
  errors : List Nat
deriving DecidableEq

/-- `VisitParmVarDecl` (CodeGenDeclVisitor.hpp:544-549): look the declaration
up in `context().vars`; on a hit, return its defining op; on a miss, report
"missing parameter declaration" through the context's error sink and return a
null operation. -/
def visitParmVarDecl (s : ParmState) (d : Nat) : Option Nat × ParmState :=
  match chain_lookup s.vars d with
  | some v => (some v, s)
  | none => (none, { s with errors := s.errors ++ [d] })

/-- Lowering a sequence of parameter references: each visit returns (it never
unwinds), so processing continues past a miss. -/
def visitParmList (s : ParmState) : List Nat → List (Option Nat) × ParmState
  | [] => ([], s)
  | d :: rest =>
    let r := visitParmVarDecl s d
    let r2 := visitParmList r.2 rest
    (r.1 :: r2.1, r2.2)

end Params

/-! ## Pass pipeline deduplication

Embeds `pipeline_t` (Util/Pipeline.hpp:36-59). -/

namespace Pipe

/-- `pipeline_t`: the `seen` set of pass TypeIDs, and the passes scheduled on
the underlying `mlir::PassManager`, in order. -/
structure Pipeline where
  seen : List Nat
  passes : List Nat
deriving DecidableEq

/-- `pipeline_t::addNestedPass` (Util/Pipeline.hpp:45-54): if the pass's
TypeID was already seen, return without scheduling; otherwise record it and
schedule the pass on the base pass manager. -/
def addNestedPass (p : Pipeline) (id : Nat) : Pipeline :=
  if id ∈ p.seen then p
  else { seen := id :: p.seen, passes := p.passes ++ [id] }

/-- Modelled from the spec: `pipeline_t::addPass` is declared at
Util/Pipeline.hpp:43 but defined outside src/; per the header's comment
("pipeline is a pass manager, which keeps track of duplicit passes and does
not schedule them twice") it deduplicates through the same seen set. -/
def addPass (p : Pipeline) (id : Nat) : Pipeline :=
  if id ∈ p.seen then p
  else { seen := id :: p.seen, passes := p.passes ++ [id] }

/-- A sequence of scheduling calls; `true` selects addNestedPass, `false`
addPass. -/
def run_adds (p : Pipeline) : List (Bool × Nat) → Pipeline
  | [] => p
  | c :: rest => run_adds (if c.1 then addNestedPass p c.2 else addPass p c.2) rest

end Pipe

/-! ## Declaration attributes

Embeds `visit_decl_attrs` (CodeGenDeclVisitor.hpp:71-92). -/

namespace Attrs

/-- Attribute keys on the operation: the attribute's spelling, or the
designated "builtin" key used for `clang::BuiltinAttr`, which cannot be
written in code and has no spelling. -/
inductive AKey where
  | builtin
  | spelled (s : Nat)
deriving DecidableEq

/-- A clang attribute on the declaration: its spelling, whether it is a
`BuiltinAttr`, whether it belongs to `excluded_attr_list` (WeakAttr,
SelectAnyAttr, CUDAGlobalAttr), and the value `visit(attr)` lowers it to
(attribute translation is an external collaborator, §6). -/
structure CAttr where
  spelling : Nat
  isBuiltin : Bool
  excluded : Bool
  value : Nat

def attr_key (a : CAttr) : AKey :=
  if a.isBuiltin then AKey.builtin else AKey.spelled a.spelling

/-- `mlir::NamedAttrList::getNamed`. -/
def getNamed : List (AKey × Nat) → AKey → Option Nat
  | [], _ => none
  | (k, v) :: rest, s => if k = s then some v else getNamed rest s

/-- `mlir::NamedAttrList::set`: replace the existing entry for the key, or
append a new one. -/
def set_attr : List (AKey × Nat) → AKey → Nat → List (AKey × Nat)
  | [], k, v => [(k, v)]
  | (k2, v2) :: rest, k, v =>
    if k2 = k then (k, v) :: rest else (k2, v2) :: set_attr rest k v

/-- The attribute loop of `visit_decl_attrs` (CodeGenDeclVisitor.hpp:75-89)
over the non-excluded attributes: visit the attribute, key it by spelling
(builtin for BuiltinAttr), `VAST_CHECK` that any attribute already present
under the same key carries the same visited value (`none` models this fatal
check firing), then set the key to the visited value. -/
def attrs_loop (attrs : List (AKey × Nat)) : List CAttr → Option (List (AKey × Nat))
  | [] => some attrs
  | a :: rest =>
    match getNamed attrs (attr_key a) with
    | some prev =>
      if a.value = prev then attrs_loop (set_attr attrs (attr_key a) a.value) rest
      else none
    | none => attrs_loop (set_attr attrs (attr_key a) a.value) rest

/-- `visit_decl_attrs` (CodeGenDeclVisitor.hpp:71-92): without attributes the
operation is untouched (`decl->hasAttrs()` guard); otherwise the loop runs on
the non-excluded attributes against the operation's current attribute list
(`op->getAttrs()`), and the result is stored back with `op->setAttrs`. -/
def visit_decl_attrs (declAttrs : List CAttr) (opAttrs : List (AKey × Nat)) :
    Option (List (AKey × Nat)) :=
  if declAttrs.isEmpty then some opAttrs
  else attrs_loop opAttrs (declAttrs.filter (fun a => !a.excluded))

end Attrs

/-! ## Lemmas and claim theorems -/

namespace Decls

theorem chain_lookup_bind_self (c : Chain) (d e : Nat) :
    chain_lookup (chain_bind c d e) d = some e := by
  cases c with
  | nil => simp [chain_bind, chain_lookup, alookup]
  | cons s rest => simp [chain_bind, chain_lookup, alookup]

theorem declare_found {σ : Type} (c : Chain) (st : σ) (d e : Nat)
    (b : σ → Nat × σ) (h : chain_lookup c d = some e) :
    declare c st d b = (e, c, st) := by
  simp [declare, h]

/-- A second `declare` of the same declaration, with any builder, returns the
binding made by the first and leaves the table and state untouched. -/
theorem declare_declare {σ : Type} (c : Chain) (st : σ) (d : Nat)
    (b b2 : σ → Nat × σ) :
    declare (declare c st d b).2.1 (declare c st d b).2.2 d b2
      = declare c st d b := by
  unfold declare
  cases h : chain_lookup c d with
  | some e => simp [h]
  | none => simp [h, chain_lookup_bind_self]

theorem visitVarDecl_idem (s : VarState) (d : VarDecl) :
    (visitVarDecl (visitVarDecl s d).2 d).1 = (visitVarDecl s d).1
  ∧ (visitVarDecl (visitVarDecl s d).2 d).2.vars = (visitVarDecl s d).2.vars
  ∧ (visitVarDecl (visitVarDecl s d).2 d).2.fresh = (visitVarDecl s d).2.fresh := by
  have h := declare_declare s.vars s.fresh d.id
    (fun fr => (fr, fr + 1)) (fun fr => (fr, fr + 1))
  cases hi : d.hasInit <;>
    simp [visitVarDecl, hi, h]

theorem visit_via_declare_idem (s : DeclState) (d : Nat) :
    visit_via_declare (visit_via_declare s d).2 d = visit_via_declare s d := by
  have h := declare_declare s.table s.fresh d
    (fun fr => (fr, fr + 1)) (fun fr => (fr, fr + 1))
  simp [visit_via_declare, h]

theorem visitFunctionLikeDecl_idem (s : FnState) (d : FuncDecl) :
    visitFunctionLikeDecl (visitFunctionLikeDecl s d).2 d
      = visitFunctionLikeDecl s d := by
  unfold visitFunctionLikeDecl lookup_function
  cases hdef : d.isDefinition <;>
    cases h : alookup s.funcs d.mangled <;>
    simp [alookup, h, hdef] <;>
    split <;>
    simp_all [alookup]

end Decls

namespace Term

theorem is_terminator_emit (f : FnInfo) :
    is_terminator (emit_function_terminator f) = true := by
  unfold emit_function_terminator
  split
  · rfl
  · split <;> rfl

theorem getLast?_concat_eq (l : List α) (a : α) :
    (l ++ [a]).getLast? = some a := by
  rw [List.getLast?_append_cons]
  rfl

theorem lastOp?_appendLast (r : Region') (op : Op) :
    lastOp? (appendLast r op) = some op := by
  simp [lastOp?, appendLast, getLast?_concat_eq]

theorem appendLast_single (r : Region') (op x : Op)
    (h : appendLast r op = [[x]]) : op = x := by
  have h1 : ((r.getLast?.getD []) ++ [op] : Block) = [x] := by
    have h0 := congrArg List.getLast? h
    rw [appendLast] at h0
    rw [getLast?_concat_eq] at h0
    simpa using h0
  have h2 := congrArg List.getLast? h1
  rw [getLast?_concat_eq] at h2
  simpa using h2

theorem true_last_op_appendLast (r : Region') (op : Op)
    (h : is_terminator op = true) :
    true_last_op (appendLast r op) = some op := by
  rw [true_last_op.eq_2, lastOp?_appendLast]
  intro inner hinner
  have := appendLast_single r op (Op.scopeOp inner) hinner
  subst this
  simp [is_terminator] at h

theorem true_last_op_insert (op : Op) (h : is_terminator op = true)
    (r : Region') : true_last_op (insert_at_true_end op r) = some op := by
  induction r using insert_at_true_end.induct op with
  | case1 inner ih =>
    rw [insert_at_true_end, true_last_op, ih]
  | case2 r h1 =>
    rw [insert_at_true_end.eq_2 _ _ h1]
    exact true_last_op_appendLast r op h

/-- The full characterization of the terminator-synthesis phase: if the true
last operation (after trailing-scope descent) is a terminator, the region is
returned untouched; otherwise the synthesized terminator is inserted at the
true end. -/
theorem finish_body_spec (f : FnInfo) (r : Region') :
    finish_body f r =
      if true_last_terminated r then r
      else insert_at_true_end (emit_function_terminator f) r := by
  induction r using finish_body.induct f with
  | case1 inner ih =>
    rw [finish_body, true_last_terminated, true_last_op, insert_at_true_end, ih,
      ← true_last_terminated]
    by_cases h : true_last_terminated inner <;> simp [h]
  | case2 r h1 op h2 h3 =>
    rw [finish_body.eq_2 _ _ h1, h2, true_last_terminated, true_last_op.eq_2 _ h1, h2]
    simp [h3]
  | case3 r h1 op h2 h3 =>
    rw [finish_body.eq_2 _ _ h1, h2, true_last_terminated, true_last_op.eq_2 _ h1, h2,
      insert_at_true_end.eq_2 _ _ h1]
  | case4 r h1 h2 =>
    rw [finish_body.eq_2 _ _ h1, true_last_terminated, true_last_op.eq_2 _ h1, h2,
      insert_at_true_end.eq_2 _ _ h1]
    simp

theorem true_last_terminated_finish (f : FnInfo) (r : Region') :
    true_last_terminated (finish_body f r) = true := by
  rw [finish_body_spec]
  by_cases h : true_last_terminated r
  · rw [if_pos h]
    exact h
  · rw [if_neg (by simpa using h), true_last_terminated,
      true_last_op_insert (emit_function_terminator f) (is_terminator_emit f)]
    exact is_terminator_emit f

theorem finish_body_nest (f : FnInfo) (n : Nat) (r : Region') :
    finish_body f (nest n r) = nest n (finish_body f r) := by
  induction n with
  | zero => rfl
  | succ n ih => simp [nest, finish_body.eq_1, ih]

end Term

/-- C1 counterexample: for the lowered body `[[scope [[return]]]]` — a single
block whose single operation is a trailing scope ending in a return — the last
operation of the last block is the scope, which is not a terminator, yet the
code synthesizes nothing: the body is left unchanged, so its last block does
not end in a terminator, contradicting the claim's "otherwise exactly one
terminator is synthesized" and "every lowered function body ends in a
terminator". -/
theorem C1_counterexample :
    Term.is_terminator (Term.Op.scopeOp [[Term.Op.hlReturn Term.RVal.someVal]]) = false
  ∧ Term.lastOp? [[Term.Op.scopeOp [[Term.Op.hlReturn Term.RVal.someVal]]]]
      = some (Term.Op.scopeOp [[Term.Op.hlReturn Term.RVal.someVal]])
  ∧ Term.finish_body ⟨Term.Ty.int, false⟩
        [[Term.Op.scopeOp [[Term.Op.hlReturn Term.RVal.someVal]]]]
      = [[Term.Op.scopeOp [[Term.Op.hlReturn Term.RVal.someVal]]]] := by
  refine ⟨rfl, by simp [Term.lastOp?], ?_⟩
  simp [Term.finish_body, Term.lastOp?, Term.is_terminator]

/-- C1 (amended): after lowering a function body, if the true last operation
— the last operation of the last block, found by descending through trailing
scopes as the splicing rule (C7) prescribes — is already a terminator,
nothing is added; otherwise exactly one terminator is synthesized at the true
end: an implicit "return void" for a void-returning function, a "return zero"
of the result type for main, and "unreachable" for any other non-void
function.  Consequently the true last operation of every lowered body is a
terminator. -/
theorem C1_terminator_synthesis (f : Term.FnInfo) (r : Term.Region') :
    (Term.true_last_terminated r = true → Term.finish_body f r = r)
  ∧ (Term.true_last_terminated r = false →
        Term.finish_body f r
          = Term.insert_at_true_end (Term.emit_function_terminator f) r
      ∧ (f.retTy = Term.Ty.void →
           Term.true_last_op (Term.finish_body f r)
             = some (Term.Op.implicitReturn Term.RVal.voidV))
      ∧ (f.retTy ≠ Term.Ty.void → f.isMain = true →
           Term.true_last_op (Term.finish_body f r)
             = some (Term.Op.hlReturn (Term.RVal.zeroOf f.retTy)))
      ∧ (f.retTy ≠ Term.Ty.void → f.isMain = false →
           Term.true_last_op (Term.finish_body f r) = some Term.Op.unreachableOp))
  ∧ Term.true_last_terminated (Term.finish_body f r) = true := by
  refine ⟨fun h => by rw [Term.finish_body_spec, if_pos h], fun h => ?_,
    Term.true_last_terminated_finish f r⟩
  have heq : Term.finish_body f r
      = Term.insert_at_true_end (Term.emit_function_terminator f) r := by
    rw [Term.finish_body_spec, if_neg (by simp [h])]
  have hlast : Term.true_last_op (Term.finish_body f r)
      = some (Term.emit_function_terminator f) := by
    rw [heq]
    exact Term.true_last_op_insert _ (Term.is_terminator_emit f) r
  refine ⟨heq, fun hv => ?_, fun hv hm => ?_, fun hv hm => ?_⟩
  · rw [hlast]
    simp [Term.emit_function_terminator, hv]
  · rw [hlast]
    simp [Term.emit_function_terminator, hv, hm]
  · rw [hlast]
    simp [Term.emit_function_terminator, hv, hm]

/-- Witness for C1: a concrete non-void `main` whose body's sole block ends in
a non-terminator gets exactly a "return zero" synthesized at the end. -/
theorem C1_terminator_synthesis_witness :
    Term.finish_body ⟨Term.Ty.int, true⟩ [[Term.Op.plainOp]]
      = Term.insert_at_true_end
          (Term.emit_function_terminator ⟨Term.Ty.int, true⟩) [[Term.Op.plainOp]]
  ∧ Term.true_last_op (Term.finish_body ⟨Term.Ty.int, true⟩ [[Term.Op.plainOp]])
      = some (Term.Op.hlReturn (Term.RVal.zeroOf Term.Ty.int)) := by
  have h := C1_terminator_synthesis ⟨Term.Ty.int, true⟩ [[Term.Op.plainOp]]
  have hnt : Term.true_last_terminated [[Term.Op.plainOp]] = false := by
    simp [Term.true_last_terminated, Term.true_last_op, Term.lastOp?, Term.is_terminator]
  exact ⟨(h.2.1 hnt).1, (h.2.1 hnt).2.2.1 (by simp) rfl⟩

/-- C7 counterexample: the trailing operation of the function's last block is
a scope whose own last block contains exactly one operation (a terminator),
so the claim prescribes recursing into the scope and synthesizing nothing;
the code instead never descends (the enclosing block holds two operations)
and appends a synthesized terminator after the scope. -/
theorem C7_counterexample :
    Term.lastOp? [[Term.Op.plainOp, Term.Op.scopeOp [[Term.Op.unreachableOp]]]]
      = some (Term.Op.scopeOp [[Term.Op.unreachableOp]])
  ∧ Term.is_terminator Term.Op.unreachableOp = true
  ∧ Term.finish_body ⟨Term.Ty.int, false⟩
        [[Term.Op.plainOp, Term.Op.scopeOp [[Term.Op.unreachableOp]]]]
      = [[Term.Op.plainOp, Term.Op.scopeOp [[Term.Op.unreachableOp]],
          Term.Op.unreachableOp]] := by
  refine ⟨by simp [Term.lastOp?], rfl, ?_⟩
  simp [Term.finish_body, Term.lastOp?, Term.is_terminator, Term.appendLast,
    Term.emit_function_terminator]

/-- C7 (amended): the descent recurses into a trailing scope exactly when the
scope is the sole operation of the sole block of its enclosing region — then
the whole finishing step commutes with any number of such scope wrappings, so
a synthesized terminator lands inside the innermost scope; when the trailing
operation is a scope but its enclosing region is not of that single-block,
single-op shape, no descent happens and the synthesized terminator is
appended after the scope, at the end of the last block. -/
theorem C7_trailing_scope_descent (f : Term.FnInfo) (r : Term.Region') (n : Nat) :
    Term.finish_body f (Term.nest n r) = Term.nest n (Term.finish_body f r)
  ∧ (Term.is_single_scope r = false →
      ∀ s, Term.lastOp? r = some (Term.Op.scopeOp s) →
        Term.finish_body f r = Term.appendLast r (Term.emit_function_terminator f)) := by
  refine ⟨Term.finish_body_nest f n r, fun h1 s h2 => ?_⟩
  have hns : ∀ inner, r = [[Term.Op.scopeOp inner]] → False := by
    intro inner he
    subst he
    simp [Term.is_single_scope] at h1
  rw [Term.finish_body.eq_2 _ _ hns, h2]
  simp [Term.is_terminator]

/-- Witness for C7: two nested single-op trailing scopes around a plain op
are descended, so the implicit void return is inserted innermost; a trailing
scope sharing its block with another op is not descended, so the terminator
is appended after it. -/
theorem C7_trailing_scope_descent_witness :
    Term.finish_body ⟨Term.Ty.void, false⟩ (Term.nest 2 [[Term.Op.plainOp]])
      = Term.nest 2 (Term.finish_body ⟨Term.Ty.void, false⟩ [[Term.Op.plainOp]])
  ∧ Term.finish_body ⟨Term.Ty.void, false⟩
        [[Term.Op.plainOp, Term.Op.scopeOp [[Term.Op.plainOp]]]]
      = Term.appendLast [[Term.Op.plainOp, Term.Op.scopeOp [[Term.Op.plainOp]]]]
          (Term.emit_function_terminator ⟨Term.Ty.void, false⟩) := by
  refine ⟨(C7_trailing_scope_descent ⟨Term.Ty.void, false⟩ [[Term.Op.plainOp]] 2).1, ?_⟩
  refine (C7_trailing_scope_descent ⟨Term.Ty.void, false⟩
    [[Term.Op.plainOp, Term.Op.scopeOp [[Term.Op.plainOp]]]] 0).2 rfl
    [[Term.Op.plainOp]] (by simp [Term.lastOp?])

namespace Tags

theorem visit_enum_consts_ents (s : EnumState) (cs : List Nat) :
    (visit_enum_consts s cs).2.ents = s.ents := by
  induction cs generalizing s with
  | nil => rfl
  | cons c rest ih =>
    unfold visit_enum_consts
    cases h : Decls.alookup s.enumconsts c with
    | some v =>
      simp only [h]
      exact ih s
    | none =>
      simp only [h]
      exact ih _

theorem visit_enum_consts_enumdecls (s : EnumState) (cs : List Nat) :
    (visit_enum_consts s cs).2.enumdecls = s.enumdecls := by
  induction cs generalizing s with
  | nil => rfl
  | cons c rest ih =>
    unfold visit_enum_consts
    cases h : Decls.alookup s.enumconsts c with
    | some v =>
      simp only [h]
      exact ih s
    | none =>
      simp only [h]
      exact ih _

theorem alookup_enumconsts_mono (s : EnumState) (cs : List Nat) (c v : Nat)
    (h : Decls.alookup s.enumconsts c = some v) :
    Decls.alookup (visit_enum_consts s cs).2.enumconsts c = some v := by
  induction cs generalizing s with
  | nil => exact h
  | cons c2 rest ih =>
    unfold visit_enum_consts
    cases h2 : Decls.alookup s.enumconsts c2 with
    | some v2 =>
      simp only [h2]
      exact ih s h
    | none =>
      simp only [h2]
      apply ih
      have hne : c2 ≠ c := by
        intro he
        rw [he, h] at h2
        cases h2
      simp [Decls.alookup, hne, h]

theorem visit_enum_consts_bound (s : EnumState) (cs : List Nat) :
    ∀ c ∈ cs, (Decls.alookup (visit_enum_consts s cs).2.enumconsts c).isSome := by
  induction cs generalizing s with
  | nil => simp
  | cons c2 rest ih =>
    intro c hc
    unfold visit_enum_consts
    cases h2 : Decls.alookup s.enumconsts c2 with
    | some v2 =>
      simp only [h2]
      rcases List.mem_cons.mp hc with rfl | hmem
      · rw [alookup_enumconsts_mono s rest c v2 h2]
        rfl
      · exact ih s c hmem
    | none =>
      simp only [h2]
      rcases List.mem_cons.mp hc with rfl | hmem
      · rw [alookup_enumconsts_mono _ rest c s.fresh (by simp [Decls.alookup])]
        rfl
      · exact ih _ c hmem

theorem visit_enum_consts_nop (s : EnumState) (cs : List Nat)
    (h : ∀ c ∈ cs, (Decls.alookup s.enumconsts c).isSome) :
    visit_enum_consts s cs = ([], s) := by
  induction cs with
  | nil => rfl
  | cons c rest ih =>
    have hc := h c (by simp)
    unfold visit_enum_consts
    cases h2 : Decls.alookup s.enumconsts c with
    | some v =>
      simp only [h2]
      exact ih fun c2 hc2 => h c2 (by simp [hc2])
    | none =>
      rw [h2] at hc
      cases hc

theorem update_ent_keys (ents : List (Nat × EnumEnt)) (e : Nat)
    (f : EnumEnt → EnumEnt) :
    (update_ent ents e f).map Prod.fst = ents.map Prod.fst := by
  unfold update_ent
  induction ents with
  | nil => rfl
  | cons p rest ih =>
    by_cases h : p.1 = e <;> simp [h, ih]

theorem update_ent_cons (k : Nat) (v : EnumEnt) (rest : List (Nat × EnumEnt))
    (e : Nat) (f : EnumEnt → EnumEnt) :
    update_ent ((k, v) :: rest) e f
      = (if k = e then (k, f v) else (k, v)) :: update_ent rest e f := by
  unfold update_ent
  simp only [List.map_cons]

theorem alookup_update_ent (ents : List (Nat × EnumEnt)) (e : Nat)
    (f : EnumEnt → EnumEnt) (x : Nat) :
    Decls.alookup (update_ent ents e f) x
      = if x = e then (Decls.alookup ents x).map f else Decls.alookup ents x := by
  induction ents with
  | nil => by_cases h : x = e <;> simp [update_ent, Decls.alookup, h]
  | cons p rest ih =>
    obtain ⟨k, v⟩ := p
    rw [update_ent_cons]
    by_cases hk : k = e
    · rw [if_pos hk]
      subst hk
      by_cases hx : x = k
      · subst hx
        simp [Decls.alookup, ih]
      · have hkx : ¬(k = x) := fun h => hx h.symm
        simp [Decls.alookup, hkx, hx, ih]
    · rw [if_neg hk]
      by_cases hx : k = x
      · subst hx
        have hxe : ¬(k = e) := hk
        simp [Decls.alookup, hxe]
      · by_cases hxe : x = e
        · subst hxe
          simp [Decls.alookup, hk, hx, ih]
        · simp [Decls.alookup, hk, hx, hxe, ih]

theorem update_ent_congr (ents : List (Nat × EnumEnt)) (e : Nat)
    (f g : EnumEnt → EnumEnt) (h : ∀ en, f en = g en) :
    update_ent ents e f = update_ent ents e g := by
  unfold update_ent
  induction ents with
  | nil => rfl
  | cons p rest ih => by_cases hp : p.1 = e <;> simp [hp, ih, h]

theorem update_ent_comp (ents : List (Nat × EnumEnt)) (e : Nat)
    (f g : EnumEnt → EnumEnt) :
    update_ent (update_ent ents e f) e g
      = update_ent ents e (fun en => g (f en)) := by
  unfold update_ent
  induction ents with
  | nil => rfl
  | cons p rest ih => by_cases hp : p.1 = e <;> simp [hp, ih]

theorem find_prev_ent_cons_not_mem (tbl : List (Nat × Nat)) (x e : Nat)
    (ps : List Nat) (h : x ∉ ps) :
    find_prev_ent ((x, e) :: tbl) ps = find_prev_ent tbl ps := by
  induction ps with
  | nil => rfl
  | cons p rest ih =>
    have hxp : x ≠ p := fun he => h (he ▸ List.mem_cons_self p rest)
    unfold find_prev_ent
    rw [show Decls.alookup ((x, e) :: tbl) p = Decls.alookup tbl p by
      simp [Decls.alookup, hxp]]
    cases Decls.alookup tbl p with
    | some v => rfl
    | none => exact ih fun hm => h (List.mem_cons_of_mem p hm)

theorem enum_declare_of_found (s : EnumState) (d : EnumDecl) (e : Nat)
    (h : Decls.alookup s.enumdecls d.id = some e) :
    enum_declare s d = (some e, s) := by
  simp [enum_declare, h]

theorem enum_declare_binds (s : EnumState) (d : EnumDecl) :
    ∃ e, (enum_declare s d).1 = some e
      ∧ Decls.alookup (enum_declare s d).2.enumdecls d.id = some e := by
  unfold enum_declare
  cases h : Decls.alookup s.enumdecls d.id with
  | some e => exact ⟨e, rfl, h⟩
  | none =>
    by_cases hc : d.complete = false
    · exact ⟨s.fresh, by simp [hc], by simp [hc, Decls.alookup]⟩
    · refine ⟨s.fresh, by simp [hc], ?_⟩
      simp [hc, visit_enum_consts_enumdecls, Decls.alookup]

theorem enum_declare_enumdecls (s : EnumState) (d : EnumDecl) :
    (enum_declare s d).2.enumdecls = s.enumdecls
  ∨ ∃ e, (enum_declare s d).2.enumdecls = (d.id, e) :: s.enumdecls := by
  unfold enum_declare
  cases h : Decls.alookup s.enumdecls d.id with
  | some e => left; rfl
  | none =>
    by_cases hc : d.complete = false
    · right; exact ⟨s.fresh, by simp [hc]⟩
    · right
      refine ⟨s.fresh, ?_⟩
      simp [hc, visit_enum_consts_enumdecls]

theorem enum_declare_idem (s : EnumState) (d : EnumDecl) :
    enum_declare (enum_declare s d).2 d = enum_declare s d := by
  obtain ⟨e, h1, h2⟩ := enum_declare_binds s d
  rw [enum_declare_of_found _ _ e h2, ← h1]

theorem update_ent_id (ents : List (Nat × EnumEnt)) (e : Nat) :
    update_ent ents e (fun en => en) = ents := by
  unfold update_ent
  induction ents with
  | nil => rfl
  | cons p rest ih => by_cases h : p.1 = e <;> simp [h, ih]

theorem complete_state_enumdecls (s : EnumState) (d : EnumDecl) (pop : Nat) :
    (complete_state s d pop).enumdecls = s.enumdecls := by
  unfold complete_state
  simp [visit_enum_consts_enumdecls, typed_state]

theorem complete_state_ents (s : EnumState) (d : EnumDecl) (pop : Nat) :
    (complete_state s d pop).ents
      = update_ent (update_ent s.ents pop (set_int_type d)) pop
          (prepend_consts (inserted_consts s d pop)) := by
  unfold complete_state inserted_consts
  simp only [visit_enum_consts_ents]
  rfl

theorem complete_state_ents_keys (s : EnumState) (d : EnumDecl) (pop : Nat) :
    (complete_state s d pop).ents.map Prod.fst = s.ents.map Prod.fst := by
  rw [complete_state_ents]
  simp [update_ent_keys]

theorem complete_state_ents_lookup (s : EnumState) (d : EnumDecl) (pop : Nat)
    (old : EnumEnt) (h : Decls.alookup s.ents pop = some old) :
    Decls.alookup (complete_state s d pop).ents pop
      = some ⟨some d.intType, inserted_consts s d pop ++ old.constants⟩ := by
  rw [complete_state_ents]
  simp [alookup_update_ent, h, set_int_type, prepend_consts]

theorem visitEnumDecl_found_eq (s : EnumState) (d : EnumDecl)
    (prev : Nat) (rest : List Nat) (pop : Nat)
    (hp : d.prevs = prev :: rest) (hc : ¬d.complete = false)
    (hfp : find_prev_ent s.enumdecls d.prevs = some pop) :
    visitEnumDecl s d = (some pop, complete_state s d pop) := by
  have hfp2 : find_prev_ent s.enumdecls (prev :: rest) = some pop := by
    rw [← hp]
    exact hfp
  simp [visitEnumDecl, hp, hc, hfp2]

theorem update_ent_setty_absorb (E : List (Nat × EnumEnt)) (pop : Nat)
    (d : EnumDecl) (cs : List Nat) :
    update_ent (update_ent (update_ent E pop (set_int_type d)) pop
        (prepend_consts cs)) pop (set_int_type d)
      = update_ent (update_ent E pop (set_int_type d)) pop (prepend_consts cs) := by
  simp only [update_ent_comp]
  exact update_ent_congr _ _ _ _ fun en => rfl

theorem complete_state_fixed (S : EnumState) (d : EnumDecl) (pop : Nat)
    (hb : ∀ c ∈ d.enumerators, (Decls.alookup S.enumconsts c).isSome = true)
    (habs : update_ent S.ents pop (set_int_type d) = S.ents) :
    complete_state S d pop = S := by
  unfold complete_state typed_state
  simp only [habs]
  have hnop : visit_enum_consts { S with ents := S.ents } d.enumerators
      = ([], { S with ents := S.ents }) :=
    visit_enum_consts_nop _ _ hb
  rw [hnop]
  have hid : update_ent S.ents pop (prepend_consts ([] : List Nat)) = S.ents :=
    update_ent_id S.ents pop
  simp only []
  rw [hid]

theorem complete_state_idem (s : EnumState) (d : EnumDecl) (pop : Nat) :
    complete_state (complete_state s d pop) d pop = complete_state s d pop := by
  apply complete_state_fixed
  · intro c hc2
    exact visit_enum_consts_bound _ d.enumerators c hc2
  · rw [complete_state_ents]
    exact update_ent_setty_absorb s.ents pop d _

theorem visitEnumDecl_idem (s : EnumState) (d : EnumDecl) (hni : d.id ∉ d.prevs) :
    visitEnumDecl (visitEnumDecl s d).2 d = visitEnumDecl s d := by
  cases hp : d.prevs with
  | nil =>
    simp only [visitEnumDecl, hp]
    exact enum_declare_idem s d
  | cons prev rest =>
    rw [hp] at hni
    by_cases hc : d.complete = false
    · simp [visitEnumDecl, hp, hc]
    · cases hfp : find_prev_ent s.enumdecls (prev :: rest) with
      | none =>
        have h1 : visitEnumDecl s d = enum_declare s d := by
          simp [visitEnumDecl, hp, hc, hfp]
        rw [h1]
        have h2 : find_prev_ent (enum_declare s d).2.enumdecls (prev :: rest) = none := by
          rcases enum_declare_enumdecls s d with he | ⟨e, he⟩
          · rw [he]
            exact hfp
          · rw [he, find_prev_ent_cons_not_mem _ _ _ _ hni]
            exact hfp
        have h3 : visitEnumDecl (enum_declare s d).2 d
            = enum_declare (enum_declare s d).2 d := by
          simp [visitEnumDecl, hp, hc, h2]
        rw [h3, enum_declare_idem]
      | some pop =>
        have h1 : visitEnumDecl s d = (some pop, complete_state s d pop) :=
          visitEnumDecl_found_eq s d prev rest pop hp hc
            (by rw [hp]; exact hfp)
        rw [h1]
        have h3 : visitEnumDecl (complete_state s d pop) d
            = (some pop, complete_state (complete_state s d pop) d pop) :=
          visitEnumDecl_found_eq _ d prev rest pop hp hc
            (by rw [hp, complete_state_enumdecls]; exact hfp)
        rw [h3, complete_state_idem]

end Tags

/-- C2: visiting the same declaration twice yields the identical IR entity,
never a duplicate.  `declare(decl, builder)` returns an existing binding in
the current table chain unchanged and invokes the builder only when no
binding exists (the result does not depend on the builder, and table and
state are untouched); consequently a second visit of a variable, typedef,
label, enum-constant, function-like or enum declaration returns the entity of
the first visit and creates no new operation, and a second visit of a
function definition whose entity already has a body does not lower the body
again (the emission count is unchanged). -/
theorem C2_idempotent_declaration :
    (∀ (σ : Type) (c : Decls.Chain) (st : σ) (d e : Nat) (b : σ → Nat × σ),
        Decls.chain_lookup c d = some e → Decls.declare c st d b = (e, c, st))
  ∧ (∀ (σ : Type) (c : Decls.Chain) (st : σ) (d : Nat) (b b2 : σ → Nat × σ),
        Decls.declare (Decls.declare c st d b).2.1 (Decls.declare c st d b).2.2 d b2
          = Decls.declare c st d b)
  ∧ (∀ (s : Decls.VarState) (d : Decls.VarDecl),
        (Decls.visitVarDecl (Decls.visitVarDecl s d).2 d).1
          = (Decls.visitVarDecl s d).1
      ∧ (Decls.visitVarDecl (Decls.visitVarDecl s d).2 d).2.vars
          = (Decls.visitVarDecl s d).2.vars
      ∧ (Decls.visitVarDecl (Decls.visitVarDecl s d).2 d).2.fresh
          = (Decls.visitVarDecl s d).2.fresh)
  ∧ (∀ (s : Decls.DeclState) (d : Nat),
        Decls.visit_via_declare (Decls.visit_via_declare s d).2 d
          = Decls.visit_via_declare s d)
  ∧ (∀ (s : Decls.FnState) (d : Decls.FuncDecl),
        Decls.visitFunctionLikeDecl (Decls.visitFunctionLikeDecl s d).2 d
          = Decls.visitFunctionLikeDecl s d
      ∧ (Decls.visitFunctionLikeDecl (Decls.visitFunctionLikeDecl s d).2 d).2.emissions
          = (Decls.visitFunctionLikeDecl s d).2.emissions)
  ∧ (∀ (s : Tags.EnumState) (d : Tags.EnumDecl), d.id ∉ d.prevs →
        Tags.visitEnumDecl (Tags.visitEnumDecl s d).2 d = Tags.visitEnumDecl s d) := by
  refine ⟨fun σ c st d e b h => Decls.declare_found c st d e b h,
    fun σ c st d b b2 => Decls.declare_declare c st d b b2,
    fun s d => Decls.visitVarDecl_idem s d,
    fun s d => Decls.visit_via_declare_idem s d,
    fun s d => ⟨Decls.visitFunctionLikeDecl_idem s d, ?_⟩,
    fun s d h => Tags.visitEnumDecl_idem s d h⟩
  rw [Decls.visitFunctionLikeDecl_idem s d]

/-- Witness for C2: a found binding is returned as-is; a complete enum
declaration visited twice from the empty state returns the same entity and
state. -/
theorem C2_idempotent_declaration_witness :
    Decls.declare [[(5, 9)]] 0 5 (fun fr : Nat => (fr, fr + 1)) = (9, [[(5, 9)]], 0)
  ∧ Tags.visitEnumDecl
        (Tags.visitEnumDecl ⟨[], [], [], 0⟩ ⟨3, [], true, 7, [4]⟩).2
        ⟨3, [], true, 7, [4]⟩
      = Tags.visitEnumDecl ⟨[], [], [], 0⟩ ⟨3, [], true, 7, [4]⟩ := by
  refine ⟨C2_idempotent_declaration.1 Nat [[(5, 9)]] 0 5 9 _
    (by simp [Decls.chain_lookup, Decls.alookup]), ?_⟩
  exact C2_idempotent_declaration.2.2.2.2.2 ⟨[], [], [], 0⟩
    ⟨3, [], true, 7, [4]⟩ (by simp)

/-- C3 counterexample: a record tag forward-declared (one declaration) and
then completed (a redeclaration of the same logical tag) does not keep one IR
entity: the forward visit creates `hl::TypeDeclOp` 0, and the completing
visit — which consults no previous declaration — unconditionally creates a
fresh record op 1, so two IR entities exist for the one logical tag and
nothing was mutated in place. -/
theorem C3_counterexample :
    (Tags.make_record_decl ⟨[], 0, []⟩ ⟨0, false⟩).1 = 0
  ∧ (Tags.make_record_decl (Tags.make_record_decl ⟨[], 0, []⟩ ⟨0, false⟩).2
      ⟨1, true⟩).1 = 1
  ∧ (Tags.make_record_decl (Tags.make_record_decl ⟨[], 0, []⟩ ⟨0, false⟩).2
      ⟨1, true⟩).2.created = [0, 1] := by
  refine ⟨rfl, rfl, ?_⟩
  simp [Tags.make_record_decl, Decls.alookup]

/-- C3 (amended): completion keeps the same IR entity in place for enums
only.  A complete non-first enum declaration with a forward entity on its
previous-declaration chain returns exactly that entity, leaves the
enum-declaration table and the set of tag entities unchanged (no new entity),
and mutates the entity in place: its underlying type becomes the visited
integer type, and the newly created enumerator ops are inserted in front of
the existing constants.  For records, a complete definition never reuses or
mutates a prior forward entity: it always creates a fresh record op; only an
incomplete redeclaration reuses the forward entity, via declare. -/
theorem C3_tag_completion :
    (∀ (s : Tags.EnumState) (d : Tags.EnumDecl) (prev : Nat) (rest : List Nat)
        (pop : Nat),
        d.prevs = prev :: rest → ¬d.complete = false →
        Tags.find_prev_ent s.enumdecls d.prevs = some pop →
          (Tags.visitEnumDecl s d).1 = some pop
        ∧ (Tags.visitEnumDecl s d).2.enumdecls = s.enumdecls
        ∧ (Tags.visitEnumDecl s d).2.ents.map Prod.fst = s.ents.map Prod.fst
        ∧ ∀ old, Decls.alookup s.ents pop = some old →
            Decls.alookup (Tags.visitEnumDecl s d).2.ents pop
              = some ⟨some d.intType, Tags.inserted_consts s d pop ++ old.constants⟩)
  ∧ (∀ (s : Tags.RecState) (d : Tags.RecordDecl), d.complete = true →
        (Tags.make_record_decl s d).1 = s.fresh
      ∧ (Tags.make_record_decl s d).2.created = s.created ++ [s.fresh])
  ∧ (∀ (s : Tags.RecState) (d : Tags.RecordDecl), d.complete = false →
        (Tags.make_record_decl (Tags.make_record_decl s d).2 d).1
          = (Tags.make_record_decl s d).1) := by
  refine ⟨fun s d prev rest pop hp hc hfp => ?_, fun s d h => ?_, fun s d h => ?_⟩
  · rw [Tags.visitEnumDecl_found_eq s d prev rest pop hp hc hfp]
    exact ⟨rfl, Tags.complete_state_enumdecls s d pop,
      Tags.complete_state_ents_keys s d pop,
      fun old hold => Tags.complete_state_ents_lookup s d pop old hold⟩
  · simp [Tags.make_record_decl, h]
  · unfold Tags.make_record_decl
    simp only [h]
    cases h2 : Decls.alookup s.recdecls d.id with
    | some e => simp [h2]
    | none => simp [h2, Decls.alookup]

/-- Witness for C3: completing the forward-declared enum entity 0 (bound to
declaration 10) through redeclaration 11 returns entity 0 with its type set
and its constants filled; a complete record declaration over a fresh state
creates op 5. -/
theorem C3_tag_completion_witness :
    (Tags.visitEnumDecl ⟨[(10, 0)], [], [(0, ⟨none, []⟩)], 1⟩
        ⟨11, [10], true, 7, [4]⟩).1 = some 0
  ∧ (Tags.make_record_decl ⟨[], 5, []⟩ ⟨2, true⟩).1 = 5 := by
  refine ⟨(C3_tag_completion.1 ⟨[(10, 0)], [], [(0, ⟨none, []⟩)], 1⟩
      ⟨11, [10], true, 7, [4]⟩ 10 [] 0 rfl (by simp) ?_).1,
    (C3_tag_completion.2.1 ⟨[], 5, []⟩ ⟨2, true⟩ rfl).1⟩
  simp [Tags.find_prev_ent, Decls.alookup]

namespace Diag

/-- Either nothing happens, or the pair is emitted and `g` newly recorded. -/
theorem diagnose_duplicate_cases (s : DiagState) (g : GD) (n : Nat)
    (fd hb hr : Bool) :
    diagnose_duplicate s g n fd hb hr = s
  ∨ (g ∉ s.diagnosed
     ∧ diagnose_duplicate s g n fd hb hr
        = { diagnosed := g :: s.diagnosed,
            reports := s.reports ++
              [(DiagKind.duplicateMangledName, g, n),
               (DiagKind.previousDefinition, g, n)] }) := by
  by_cases h1 : (fd && hb) = true
  · by_cases h2 : hr = true
    · by_cases h3 : g.hasCanonical = true
      · by_cases h4 : g ∈ s.diagnosed
        · left
          simp [diagnose_duplicate, record_conflicting_definition, h1, h2, h3, h4]
        · right
          refine ⟨h4, ?_⟩
          simp [diagnose_duplicate, record_conflicting_definition, h1, h2, h3, h4]
      · left
        simp [diagnose_duplicate, h1, h2, h3]
    · left
      simp [diagnose_duplicate, h1, h2]
  · left
    simp [diagnose_duplicate, h1]

theorem diagnose_duplicate_mem (s : DiagState) (g : GD) (n : Nat)
    (fd hb hr : Bool) (h : g ∈ s.diagnosed) :
    diagnose_duplicate s g n fd hb hr = s := by
  rcases diagnose_duplicate_cases s g n fd hb hr with he | ⟨hmem, _⟩
  · exact he
  · exact absurd h hmem

theorem counts_after_emit (s : DiagState) (g : GD) (n : Nat) (g2 : GD) :
    err_count ⟨g :: s.diagnosed, s.reports ++
        [(DiagKind.duplicateMangledName, g, n),
         (DiagKind.previousDefinition, g, n)]⟩ g2
      = err_count s g2 + (if g2 = g then 1 else 0)
  ∧ note_count ⟨g :: s.diagnosed, s.reports ++
        [(DiagKind.duplicateMangledName, g, n),
         (DiagKind.previousDefinition, g, n)]⟩ g2
      = note_count s g2 + (if g2 = g then 1 else 0) := by
  unfold err_count note_count
  by_cases h : g2 = g
  · subst h
    simp [List.filter_append]
  · have h2 : ¬g = g2 := fun he => h he.symm
    simp [List.filter_append, h, h2]

theorem diagnose_duplicate_inv (s : DiagState) (g0 : GD) (n : Nat)
    (fd hb hr : Bool)
    (h : ∀ g, err_count s g ≤ 1 ∧ (g ∉ s.diagnosed → err_count s g = 0)
        ∧ err_count s g = note_count s g) :
    ∀ g, err_count (diagnose_duplicate s g0 n fd hb hr) g ≤ 1
      ∧ (g ∉ (diagnose_duplicate s g0 n fd hb hr).diagnosed →
          err_count (diagnose_duplicate s g0 n fd hb hr) g = 0)
      ∧ err_count (diagnose_duplicate s g0 n fd hb hr) g
          = note_count (diagnose_duplicate s g0 n fd hb hr) g := by
  rcases diagnose_duplicate_cases s g0 n fd hb hr with he | ⟨hmem, he⟩
  · rw [he]
    exact h
  · rw [he]
    intro g
    obtain ⟨ha, hz, hn⟩ := h g
    have hcount := counts_after_emit s g0 n g
    by_cases hg : g = g0
    · subst hg
      refine ⟨?_, ?_, ?_⟩
      · rw [hcount.1, hz hmem]
        simp
      · intro hno
        exact absurd (List.mem_cons_self g s.diagnosed) hno
      · rw [hcount.1, hcount.2, hn]
    · refine ⟨?_, ?_, ?_⟩
      · rw [hcount.1]
        simpa [hg] using ha
      · intro hno
        rw [hcount.1]
        simp only [hg, if_false]
        have : g ∉ s.diagnosed := fun hm => hno (List.mem_cons_of_mem _ hm)
        simp [hz this]
      · rw [hcount.1, hcount.2, hn]

theorem run_diagnose_inv (invs : List Invocation) (s : DiagState)
    (h : ∀ g, err_count s g ≤ 1 ∧ (g ∉ s.diagnosed → err_count s g = 0)
        ∧ err_count s g = note_count s g) :
    ∀ g, err_count (run_diagnose s invs) g ≤ 1
      ∧ err_count (run_diagnose s invs) g = note_count (run_diagnose s invs) g := by
  induction invs generalizing s with
  | nil => exact fun g => ⟨(h g).1, (h g).2.2⟩
  | cons i rest ih =>
    exact ih _ (diagnose_duplicate_inv s i.g i.name i.forDefinition i.fnHasBody
      i.hasRepresentative h)

end Diag

/-- C4 counterexample: two definitions with the same mangled name reached via
two distinct GlobalDecls (two redeclarations of the logical entity): both
invocations pass the diagnosed-conflicts check, because the set is keyed by
the GlobalDecl and not by the name or the canonical declaration, so the
duplicate-mangled-name error is emitted twice for the one logical entity. -/
theorem C4_counterexample :
    Diag.err_count_name
      (Diag.run_diagnose ⟨[], []⟩
        [⟨⟨1, true⟩, 7, true, true, true⟩, ⟨⟨2, true⟩, 7, true, true, true⟩]) 7
      = 2 := by
  rfl

/-- C4 (amended): the conflicting-definition diagnostic pair is emitted at
most once per GlobalDecl, the deduplication key of the diagnosed-conflicts
set: an invocation whose GlobalDecl is already in the set changes nothing,
and over any sequence of invocations from the initial state each GlobalDecl
triggers at most one error, always paired with exactly one
previous-definition note.  (Distinct redeclarations of the same name may each
emit one pair.) -/
theorem C4_diagnose_at_most_once :
    (∀ (s : Diag.DiagState) (g : Diag.GD) (n : Nat) (fd hb hr : Bool),
        g ∈ s.diagnosed → Diag.diagnose_duplicate s g n fd hb hr = s)
  ∧ (∀ (invs : List Diag.Invocation) (g : Diag.GD),
        Diag.err_count (Diag.run_diagnose ⟨[], []⟩ invs) g ≤ 1
      ∧ Diag.err_count (Diag.run_diagnose ⟨[], []⟩ invs) g
          = Diag.note_count (Diag.run_diagnose ⟨[], []⟩ invs) g) := by
  refine ⟨fun s g n fd hb hr h => Diag.diagnose_duplicate_mem s g n fd hb hr h,
    fun invs g => ?_⟩
  exact Diag.run_diagnose_inv invs ⟨[], []⟩
    (fun g2 => ⟨by simp [Diag.err_count], fun _ => by simp [Diag.err_count],
      by simp [Diag.err_count, Diag.note_count]⟩) g

/-- Witness for C4: after one emission for a GlobalDecl, a repeated
invocation with the same GlobalDecl is the identity, and the single run
yields exactly one error paired with one note. -/
theorem C4_diagnose_at_most_once_witness :
    Diag.diagnose_duplicate ⟨[⟨1, true⟩], []⟩ ⟨1, true⟩ 7 true true true
      = ⟨[⟨1, true⟩], []⟩
  ∧ Diag.err_count
      (Diag.run_diagnose ⟨[], []⟩ [⟨⟨1, true⟩, 7, true, true, true⟩]) ⟨1, true⟩ ≤ 1 := by
  refine ⟨C4_diagnose_at_most_once.1 ⟨[⟨1, true⟩], []⟩ ⟨1, true⟩ 7 true true true
    (by simp), ?_⟩
  exact (C4_diagnose_at_most_once.2 [⟨⟨1, true⟩, 7, true, true, true⟩] ⟨1, true⟩).1

namespace Defer

theorem alookup_not_mem (l : List (Nat × Nat)) (m : Nat)
    (h : m ∉ l.map Prod.fst) : Decls.alookup l m = none := by
  induction l with
  | nil => rfl
  | cons p rest ih =>
    obtain ⟨k, v⟩ := p
    have h1 : ¬k = m := fun he => h (by simp [he])
    simp only [Decls.alookup, h1, if_false]
    exact ih fun hm => h (by
      simp only [List.map_cons]
      exact List.mem_cons_of_mem _ hm)

theorem alookup_erase_key_self (l : List (Nat × Nat)) (m : Nat)
    (h : (l.map Prod.fst).Nodup) :
    Decls.alookup (erase_key l m) m = none := by
  induction l with
  | nil => rfl
  | cons p rest ih =>
    obtain ⟨k, v⟩ := p
    by_cases hk : k = m
    · subst hk
      simp only [erase_key, if_pos rfl]
      exact alookup_not_mem rest k (by simpa using (List.nodup_cons.mp h).1)
    · simp only [erase_key, if_neg hk, Decls.alookup, hk, if_false]
      exact ih (List.nodup_cons.mp h).2

theorem walk_redecls_eq_find (s : DeferState) (rds : List FD) :
    walk_redecls s rds
      = match rds.find? (fun f => f.lexicallyInRecord && f.hasBody) with
        | none => s
        | some f =>
          if is_defaulted_method f then
            { s with default_methods := s.default_methods ++ [f.id] }
          else { s with to_emit := s.to_emit ++ [f.id] } := by
  induction rds with
  | nil => rfl
  | cons f rest ih =>
    cases hl : f.lexicallyInRecord
    · simp [walk_redecls, hl, List.find?_cons, ih]
    · cases hbdy : f.hasBody
      · simp [walk_redecls, hl, hbdy, List.find?_cons, ih]
      · simp [walk_redecls, hl, hbdy, List.find?_cons]

end Defer

/-- C5: in `get_or_create_vast_function`, with `emit.defer` set on the
creation path: a pending (`deferred_decls`) entry for the mangled name is
promoted — appended to the to-emit list and erased from pending, a one-time
promotion that leaves the default-methods queue alone; otherwise, in C++ mode
with a declaration, the redeclarations are walked from the most recent
backwards, and the first one lexically inside a record with a body is queued
— a defaulted copy/move-assignment operator on the default-methods queue,
everything else on the to-emit list — with the walk stopping at that first
match (later matches are ignored; no match leaves both queues unchanged). -/
theorem C5_deferred_promotion :
    (∀ (s : Defer.DeferState) (m : Nat) (cpp : Bool)
        (rd : Option (List Defer.FD)) (d : Nat),
        Decls.alookup s.deferred_decls m = some d →
          (Defer.defer_step s m cpp rd).to_emit = s.to_emit ++ [d]
        ∧ (Defer.defer_step s m cpp rd).default_methods = s.default_methods
        ∧ ((s.deferred_decls.map Prod.fst).Nodup →
            Decls.alookup (Defer.defer_step s m cpp rd).deferred_decls m = none))
  ∧ (∀ (s : Defer.DeferState) (m : Nat) (rds : List Defer.FD),
        Decls.alookup s.deferred_decls m = none →
          Defer.defer_step s m true (some rds)
            = match rds.find? (fun f => f.lexicallyInRecord && f.hasBody) with
              | none => s
              | some f =>
                if Defer.is_defaulted_method f then
                  { s with default_methods := s.default_methods ++ [f.id] }
                else { s with to_emit := s.to_emit ++ [f.id] })
  ∧ (∀ (s : Defer.DeferState) (m : Nat) (rds : List Defer.FD),
        Decls.alookup s.deferred_decls m = none →
          Defer.defer_step s m false (some rds) = s
        ∧ Defer.defer_step s m true none = s) := by
  refine ⟨fun s m cpp rd d h => ?_, fun s m rds h => ?_, fun s m rds h => ?_⟩
  · refine ⟨by simp [Defer.defer_step, h], by simp [Defer.defer_step, h],
      fun hnd => ?_⟩
    simp only [Defer.defer_step, h]
    exact Defer.alookup_erase_key_self s.deferred_decls m hnd
  · simp only [Defer.defer_step, h]
    exact Defer.walk_redecls_eq_find s rds
  · exact ⟨by simp [Defer.defer_step, h], by simp [Defer.defer_step, h]⟩

/-- Witness for C5: a pending entry for name 3 is promoted to to-emit and
erased; with nothing pending, the walk queues the defaulted copy-assignment
redeclaration on the default-methods queue, skipping a bodiless record-
lexical redeclaration before it. -/
theorem C5_deferred_promotion_witness :
    (Defer.defer_step ⟨[(3, 8)], [], []⟩ 3 true (some [])).to_emit = [] ++ [8]
  ∧ Decls.alookup
      (Defer.defer_step ⟨[(3, 8)], [], []⟩ 3 true (some [])).deferred_decls 3 = none
  ∧ Defer.defer_step ⟨[], [], []⟩ 3 true
        (some [⟨0, true, false, false, false, false, false⟩,
               ⟨1, true, true, true, true, true, false⟩])
      = ⟨[], [], [] ++ [1]⟩ := by
  refine ⟨(C5_deferred_promotion.1 ⟨[(3, 8)], [], []⟩ 3 true (some []) 8 rfl).1,
    (C5_deferred_promotion.1 ⟨[(3, 8)], [], []⟩ 3 true (some []) 8 rfl).2.2
      (by simp), ?_⟩
  rw [C5_deferred_promotion.2.1 ⟨[], [], []⟩ 3 _ rfl]
  rfl

namespace Params

theorem addEntryBlock_length (inputs : List Nat) (base : Nat) :
    (addEntryBlock inputs base).length = inputs.length := by
  induction inputs generalizing base with
  | nil => rfl
  | cons t rest ih => simp [addEntryBlock, ih]

theorem addEntryBlock_getElem (inputs : List Nat) (base i : Nat) :
    (addEntryBlock inputs base)[i]?
      = (inputs[i]?).map (fun t => (base + i, t)) := by
  induction inputs generalizing base i with
  | nil => simp [addEntryBlock]
  | cons t rest ih =>
    cases i with
    | zero => simp [addEntryBlock]
    | succ n =>
      simp only [addEntryBlock, List.getElem?_cons_succ, ih (base + 1) n]
      simp [show base + 1 + n = base + (n + 1) from by omega]

theorem foldl_chain_bind (pairs : List (Nat × Nat)) (s : Decls.Scope)
    (c : Decls.Chain) :
    pairs.foldl (fun ch pa => Decls.chain_bind ch pa.1 pa.2) (s :: c)
      = (pairs.reverse ++ s) :: c := by
  induction pairs generalizing s with
  | nil => rfl
  | cons pa rest ih =>
    obtain ⟨k, v⟩ := pa
    simp only [List.foldl_cons, Decls.chain_bind, List.reverse_cons,
      List.append_assoc, List.singleton_append]
    exact ih ((k, v) :: s)

theorem alookup_mem_nodup (l : List (Nat × Nat)) (k v : Nat)
    (hnd : (l.map Prod.fst).Nodup) (hm : (k, v) ∈ l) :
    Decls.alookup l k = some v := by
  induction l with
  | nil => cases hm
  | cons p rest ih =>
    obtain ⟨k2, v2⟩ := p
    rcases List.mem_cons.mp hm with he | hmem
    · cases he
      simp [Decls.alookup]
    · have hk : ¬k2 = k := by
        intro he2
        subst he2
        exact (List.nodup_cons.mp hnd).1 (by
          simp only [List.map_cons] at *
          exact List.mem_map_of_mem Prod.fst hmem)
      simp only [Decls.alookup, hk, if_false]
      exact ih (List.nodup_cons.mp hnd).2 hmem

theorem zip_getElem (ps as : List Nat) (i x y : Nat)
    (h1 : ps[i]? = some x) (h2 : as[i]? = some y) :
    (ps.zip as)[i]? = some (x, y) := by
  induction ps generalizing as i with
  | nil => simp at h1
  | cons p rest ih =>
    cases as with
    | nil => simp at h2
    | cons a arest =>
      cases i with
      | zero =>
        simp at h1 h2
        simp [List.zip_cons_cons, h1, h2]
      | succ n =>
        simp only [List.getElem?_cons_succ] at h1 h2
        simp only [List.zip_cons_cons, List.getElem?_cons_succ]
        exact ih arest n h1 h2

theorem mem_of_getElem (l : List α) (i : Nat) (x : α) (h : l[i]? = some x) :
    x ∈ l := by
  induction l generalizing i with
  | nil => simp at h
  | cons a rest ih =>
    cases i with
    | zero =>
      simp at h
      simp [h]
    | succ n =>
      simp only [List.getElem?_cons_succ] at h
      exact List.mem_cons_of_mem a (ih n h)

end Params

/-- C6: for every parameter list (any arity) the entry block has one argument
per declared parameter, in order and of the parameter's lowered type, and
`declare_function_params` binds each parameter declaration to the entry-block
argument value at the same position in a fresh scope. -/
theorem C6_entry_block_arity (lowerTy : Nat → Nat) (params : List Nat)
    (base : Nat) (c : Decls.Chain) (hnd : params.Nodup) :
    (Params.addEntryBlock (Params.function_inputs lowerTy params) base).length
      = params.length
  ∧ (∀ i x, params[i]? = some x →
      (Params.addEntryBlock (Params.function_inputs lowerTy params) base)[i]?
        = some (base + i, lowerTy x))
  ∧ (∀ i x, params[i]? = some x →
      Decls.chain_lookup
        (Params.declare_function_params params
          ((Params.addEntryBlock (Params.function_inputs lowerTy params) base).map
            Prod.fst)
          ([] :: c)) x
        = some (base + i)) := by
  refine ⟨by simp [Params.addEntryBlock_length, Params.function_inputs],
    fun i x h => ?_, fun i x h => ?_⟩
  · rw [Params.addEntryBlock_getElem]
    simp [Params.function_inputs, h]
  · have hval : ((Params.addEntryBlock (Params.function_inputs lowerTy params)
        base).map Prod.fst)[i]? = some (base + i) := by
      rw [List.getElem?_map, Params.addEntryBlock_getElem]
      simp [Params.function_inputs, h]
    have hzip := Params.zip_getElem params _ i x (base + i) h hval
    unfold Params.declare_function_params
    rw [Params.foldl_chain_bind]
    have hmem : (x, base + i) ∈ (params.zip
        ((Params.addEntryBlock (Params.function_inputs lowerTy params) base).map
          Prod.fst)).reverse := by
      rw [List.mem_reverse]
      exact Params.mem_of_getElem _ i _ hzip
    have hkeys : (((params.zip
        ((Params.addEntryBlock (Params.function_inputs lowerTy params) base).map
          Prod.fst)).reverse ++ []).map Prod.fst).Nodup := by
      rw [List.append_nil, List.map_reverse, List.nodup_reverse,
        List.map_fst_zip]
      · exact hnd
      · simp [Params.addEntryBlock_length, Params.function_inputs]
    have halk := Params.alookup_mem_nodup _ x (base + i) hkeys
      (by rw [List.append_nil]; exact hmem)
    rw [List.append_nil] at halk
    simp [Decls.chain_lookup, halk]

/-- Witness for C6: two distinct parameters get a two-argument entry block
with lowered types and positional bindings. -/
theorem C6_entry_block_arity_witness :
    (Params.addEntryBlock (Params.function_inputs Nat.succ [4, 6]) 10).length = 2
  ∧ (Params.addEntryBlock (Params.function_inputs Nat.succ [4, 6]) 10)[1]?
      = some (10 + 1, Nat.succ 6)
  ∧ Decls.chain_lookup
      (Params.declare_function_params [4, 6]
        ((Params.addEntryBlock (Params.function_inputs Nat.succ [4, 6]) 10).map
          Prod.fst)
        ([] :: [])) 6
      = some (10 + 1) := by
  have h := C6_entry_block_arity Nat.succ [4, 6] 10 [] (by simp)
  exact ⟨h.1, h.2.1 1 6 rfl, h.2.2 1 6 rfl⟩

/-- C8: a parameter reference whose declaration has a binding in the current
scope resolves to it with no state change; one with no binding is a local
recoverable error — the miss is reported through the error sink, the result
for that reference only is null, and lowering continues: a whole list of
references still yields one result per reference, the scope is untouched,
and exactly the missing references are reported, in order. -/
theorem C8_param_reference_recovery :
    (∀ (s : Params.ParmState) (d v : Nat),
        Decls.chain_lookup s.vars d = some v →
          Params.visitParmVarDecl s d = (some v, s))
  ∧ (∀ (s : Params.ParmState) (d : Nat),
        Decls.chain_lookup s.vars d = none →
          (Params.visitParmVarDecl s d).1 = none
        ∧ (Params.visitParmVarDecl s d).2.errors = s.errors ++ [d]
        ∧ (Params.visitParmVarDecl s d).2.vars = s.vars)
  ∧ (∀ (s : Params.ParmState) (ds : List Nat),
        (Params.visitParmList s ds).1.length = ds.length
      ∧ (Params.visitParmList s ds).2.vars = s.vars
      ∧ (Params.visitParmList s ds).2.errors
          = s.errors ++ ds.filter (fun d => (Decls.chain_lookup s.vars d).isNone)) := by
  refine ⟨fun s d v h => by simp [Params.visitParmVarDecl, h],
    fun s d h => ⟨by simp [Params.visitParmVarDecl, h],
      by simp [Params.visitParmVarDecl, h], by simp [Params.visitParmVarDecl, h]⟩,
    fun s ds => ?_⟩
  induction ds generalizing s with
  | nil => simp [Params.visitParmList]
  | cons d rest ih =>
    cases h : Decls.chain_lookup s.vars d with
    | some v =>
      have hv : Params.visitParmVarDecl s d = (some v, s) := by
        simp [Params.visitParmVarDecl, h]
      simp [Params.visitParmList, hv, (ih s).1, (ih s).2.1, (ih s).2.2, h]
    | none =>
      have hv : Params.visitParmVarDecl s d
          = (none, { s with errors := s.errors ++ [d] }) := by
        simp [Params.visitParmVarDecl, h]
      have ih2 := ih { s with errors := s.errors ++ [d] }
      simp only [Params.visitParmList, hv] at *
      refine ⟨by simp [ih2.1], by simp [ih2.2.1], ?_⟩
      rw [ih2.2.2]
      simp [h]

/-- Witness for C8: a bound reference resolves; an unbound one yields a null
result and a report while the scope survives. -/
theorem C8_param_reference_recovery_witness :
    Params.visitParmVarDecl ⟨[[(2, 5)]], []⟩ 2 = (some 5, ⟨[[(2, 5)]], []⟩)
  ∧ (Params.visitParmVarDecl ⟨[[(2, 5)]], []⟩ 3).1 = none
  ∧ (Params.visitParmVarDecl ⟨[[(2, 5)]], []⟩ 3).2.errors = [] ++ [3] := by
  refine ⟨C8_param_reference_recovery.1 ⟨[[(2, 5)]], []⟩ 2 5
    (by simp [Decls.chain_lookup, Decls.alookup]), ?_, ?_⟩
  · exact (C8_param_reference_recovery.2.1 ⟨[[(2, 5)]], []⟩ 3
      (by simp [Decls.chain_lookup, Decls.alookup])).1
  · exact (C8_param_reference_recovery.2.1 ⟨[[(2, 5)]], []⟩ 3
      (by simp [Decls.chain_lookup, Decls.alookup])).2.1

namespace Pipe

theorem addPass_eq_addNestedPass : addPass = addNestedPass := rfl

theorem addNestedPass_seen (p : Pipeline) (id : Nat) :
    id ∈ (addNestedPass p id).seen := by
  unfold addNestedPass
  by_cases h : id ∈ p.seen <;> simp [h]

theorem addNestedPass_of_seen (p : Pipeline) (id : Nat) (h : id ∈ p.seen) :
    addNestedPass p id = p := by
  simp [addNestedPass, h]

theorem addNestedPass_inv (p : Pipeline) (id : Nat)
    (h : (∀ x ∈ p.passes, x ∈ p.seen) ∧ p.passes.Nodup) :
    (∀ x ∈ (addNestedPass p id).passes, x ∈ (addNestedPass p id).seen)
  ∧ (addNestedPass p id).passes.Nodup := by
  unfold addNestedPass
  by_cases hm : id ∈ p.seen
  · simpa [hm] using h
  · simp only [hm, if_false]
    refine ⟨fun x hx => ?_, ?_⟩
    · rcases List.mem_append.mp hx with hx2 | hx2
      · exact List.mem_cons_of_mem _ (h.1 x hx2)
      · simp at hx2
        simp [hx2]
    · rw [List.nodup_append]
      exact ⟨h.2, List.nodup_singleton id,
        fun x hx hx2 => hm (by simp at hx2; exact hx2 ▸ h.1 x hx)⟩

theorem run_adds_inv (calls : List (Bool × Nat)) (p : Pipeline)
    (h : (∀ x ∈ p.passes, x ∈ p.seen) ∧ p.passes.Nodup) :
    (run_adds p calls).passes.Nodup := by
  induction calls generalizing p with
  | nil => exact h.2
  | cons c rest ih =>
    unfold run_adds
    cases c.1
    · rw [if_neg (by simp), addPass_eq_addNestedPass]
      exact ih _ (addNestedPass_inv p c.2 h)
    · rw [if_pos rfl]
      exact ih _ (addNestedPass_inv p c.2 h)

end Pipe

/-- C9: the pipeline schedules at most one pass per pass TypeID: adding a
pass whose TypeID is already in the seen set (through `addNestedPass`, or
`addPass`, which deduplicates the same way) returns without touching the
underlying pass manager, so adding the same pass twice equals adding it once,
and over any sequence of additions from a fresh pipeline the scheduled pass
list holds each TypeID at most once. -/
theorem C9_pipeline_dedup :
    (∀ (p : Pipe.Pipeline) (id : Nat),
        Pipe.addNestedPass (Pipe.addNestedPass p id) id = Pipe.addNestedPass p id
      ∧ Pipe.addPass (Pipe.addPass p id) id = Pipe.addPass p id
      ∧ Pipe.addPass (Pipe.addNestedPass p id) id = Pipe.addNestedPass p id)
  ∧ (∀ calls : List (Bool × Nat),
      (Pipe.run_adds ⟨[], []⟩ calls).passes.Nodup) := by
  refine ⟨fun p id => ?_, fun calls => ?_⟩
  · rw [Pipe.addPass_eq_addNestedPass]
    exact ⟨Pipe.addNestedPass_of_seen _ id (Pipe.addNestedPass_seen p id),
      Pipe.addNestedPass_of_seen _ id (Pipe.addNestedPass_seen p id),
      Pipe.addNestedPass_of_seen _ id (Pipe.addNestedPass_seen p id)⟩
  · exact Pipe.run_adds_inv calls ⟨[], []⟩ ⟨fun x hx => absurd hx (by simp), by simp⟩

namespace Attrs

theorem getNamed_set_attr_self (attrs : List (AKey × Nat)) (k : AKey) (v : Nat) :
    getNamed (set_attr attrs k v) k = some v := by
  induction attrs with
  | nil => simp [set_attr, getNamed]
  | cons p rest ih =>
    obtain ⟨k2, v2⟩ := p
    by_cases h : k2 = k
    · simp [set_attr, getNamed, h]
    · simp [set_attr, getNamed, h, ih]

theorem getNamed_set_attr_other (attrs : List (AKey × Nat)) (k : AKey) (v : Nat)
    (k2 : AKey) (h : ¬k2 = k) :
    getNamed (set_attr attrs k v) k2 = getNamed attrs k2 := by
  induction attrs with
  | nil =>
    have h2 : ¬k = k2 := fun he => h he.symm
    simp [set_attr, getNamed, h2]
  | cons p rest ih =>
    obtain ⟨k3, v3⟩ := p
    by_cases h3 : k3 = k
    · subst h3
      have h2 : ¬k3 = k2 := fun he => h he.symm
      simp [set_attr, getNamed, h2]
    · simp [set_attr, getNamed, h3, ih]

theorem attrs_loop_spec (fa : List CAttr) :
    ∀ (attrs : List (AKey × Nat)),
    (∀ a ∈ fa, ∀ b ∈ fa, attr_key a = attr_key b → a.value = b.value) →
    (∀ a ∈ fa, ∀ v, getNamed attrs (attr_key a) = some v → v = a.value) →
    ∃ attrs2, attrs_loop attrs fa = some attrs2
      ∧ ∀ k, getNamed attrs2 k
          = match fa.find? (fun a => decide (attr_key a = k)) with
            | some a => some a.value
            | none => getNamed attrs k := by
  induction fa with
  | nil => exact fun attrs _ _ => ⟨attrs, rfl, fun k => rfl⟩
  | cons a rest ih =>
    intro attrs H1 H2
    have H1r : ∀ b ∈ rest, ∀ b2 ∈ rest, attr_key b = attr_key b2 →
        b.value = b2.value :=
      fun b hb b2 hb2 he =>
        H1 b (List.mem_cons_of_mem a hb) b2 (List.mem_cons_of_mem a hb2) he
    have H2r : ∀ b ∈ rest, ∀ v,
        getNamed (set_attr attrs (attr_key a) a.value) (attr_key b) = some v →
        v = b.value := by
      intro b hb v hv
      by_cases hk : attr_key b = attr_key a
      · rw [hk, getNamed_set_attr_self] at hv
        cases hv
        exact (H1 a (List.mem_cons_self a rest) b (List.mem_cons_of_mem a hb)
          hk.symm).symm ▸ rfl
      · rw [getNamed_set_attr_other attrs (attr_key a) a.value (attr_key b) hk] at hv
        exact H2 b (List.mem_cons_of_mem a hb) v hv
    obtain ⟨attrs2, hloop, hchar⟩ := ih (set_attr attrs (attr_key a) a.value) H1r H2r
    have hstep : attrs_loop attrs (a :: rest) = attrs_loop
        (set_attr attrs (attr_key a) a.value) rest := by
      conv_lhs => unfold attrs_loop
      cases hn : getNamed attrs (attr_key a) with
      | some prev =>
        have hpv : prev = a.value := H2 a (List.mem_cons_self a rest) prev hn
        simp [hn, hpv]
      | none => simp [hn]
    refine ⟨attrs2, by rw [hstep]; exact hloop, fun k => ?_⟩
    rw [hchar k]
    by_cases hk : attr_key a = k
    · have hd : (decide (attr_key a = k)) = true := by simp [hk]
      rw [List.find?_cons, hd]
      simp only []
      cases hf : rest.find? (fun b => decide (attr_key b = k)) with
      | some b =>
        have hbk : attr_key b = k := by simpa using List.find?_some hf
        have hbm := List.mem_of_find?_eq_some hf
        have hba : b.value = a.value :=
          H1 b (List.mem_cons_of_mem a hbm) a (List.mem_cons_self a rest)
            (hbk.trans hk.symm)
        simp [hba]
      | none =>
        simp only []
        rw [← hk, getNamed_set_attr_self]
    · have hd : (decide (attr_key a = k)) = false := by simp [hk]
      rw [List.find?_cons, hd]
      simp only []
      cases hf : rest.find? (fun b => decide (attr_key b = k)) with
      | some b => rfl
      | none =>
        simp only []
        exact getNamed_set_attr_other attrs (attr_key a) a.value k
          fun he => hk he.symm

end Attrs

/-- C10 counterexample: the operation already carries an attribute under
spelling 5 with value 1, and the declaration's single (hence pairwise
consistent) attribute with the same spelling lowers to value 2: the
conflicting-redefinition check fires even though all of the declaration's
same-spelling attributes lower to equal values, refuting "under that
precondition the check never fails". -/
theorem C10_counterexample :
    Attrs.visit_decl_attrs [⟨5, false, false, 2⟩] [(Attrs.AKey.spelled 5, 1)] = none
  ∧ Attrs.getNamed [(Attrs.AKey.spelled 5, 1)]
      (Attrs.attr_key ⟨5, false, false, 2⟩) = some 1 := ⟨rfl, rfl⟩

/-- C10 (amended): `visit_decl_attrs` sets each visited non-excluded
attribute on the operation keyed by its spelling (BuiltinAttr keyed as
"builtin") and asserts agreement with any value already present under the
key; under the precondition that the declaration's same-key attributes lower
to equal values AND that no visited attribute disagrees with an attribute
already present on the operation under its key, the check never fails, each
visited attribute ends up stored under its key with its visited value, and
keys not visited keep their prior values. -/
theorem C10_attr_merge (declAttrs : List Attrs.CAttr)
    (opAttrs : List (Attrs.AKey × Nat))
    (H1 : ∀ a ∈ declAttrs.filter (fun a => !a.excluded),
          ∀ b ∈ declAttrs.filter (fun a => !a.excluded),
          Attrs.attr_key a = Attrs.attr_key b → a.value = b.value)
    (H2 : ∀ a ∈ declAttrs.filter (fun a => !a.excluded),
          ∀ v, Attrs.getNamed opAttrs (Attrs.attr_key a) = some v → v = a.value) :
    ∃ attrs2, Attrs.visit_decl_attrs declAttrs opAttrs = some attrs2
      ∧ (∀ a ∈ declAttrs.filter (fun a => !a.excluded),
          Attrs.getNamed attrs2 (Attrs.attr_key a) = some a.value)
      ∧ (∀ k, (∀ a ∈ declAttrs.filter (fun a => !a.excluded),
            Attrs.attr_key a ≠ k) →
          Attrs.getNamed attrs2 k = Attrs.getNamed opAttrs k) := by
  by_cases hemp : declAttrs.isEmpty
  · have he : declAttrs = [] := by
      cases declAttrs
      · rfl
      · simp [List.isEmpty] at hemp
    subst he
    exact ⟨opAttrs, by simp [Attrs.visit_decl_attrs], by simp, fun k _ => rfl⟩
  · obtain ⟨attrs2, hloop, hchar⟩ :=
      Attrs.attrs_loop_spec (declAttrs.filter (fun a => !a.excluded)) opAttrs H1 H2
    refine ⟨attrs2, by simp [Attrs.visit_decl_attrs, hemp, hloop],
      fun a ha => ?_, fun k hk => ?_⟩
    · rw [hchar (Attrs.attr_key a)]
      cases hf : (declAttrs.filter (fun a => !a.excluded)).find?
          (fun b => decide (Attrs.attr_key b = Attrs.attr_key a)) with
      | some b =>
        have hbk : Attrs.attr_key b = Attrs.attr_key a := by
          simpa using List.find?_some hf
        have hbm := List.mem_of_find?_eq_some hf
        simp [H1 b hbm a ha hbk]
      | none =>
        rw [List.find?_eq_none] at hf
        exact absurd (by simp) (hf a ha)
    · rw [hchar k]
      cases hf : (declAttrs.filter (fun a => !a.excluded)).find?
          (fun b => decide (Attrs.attr_key b = k)) with
      | some b =>
        have hbk : Attrs.attr_key b = k := by simpa using List.find?_some hf
        exact absurd hbk (hk b (List.mem_of_find?_eq_some hf))
      | none => rfl

/-- Witness for C10: a single non-excluded attribute against an operation
without attributes is stored under its spelling with its visited value. -/
theorem C10_attr_merge_witness :
    (Attrs.visit_decl_attrs [⟨5, false, false, 2⟩] []).isSome = true := by
  obtain ⟨attrs2, h1, -, -⟩ := C10_attr_merge [⟨5, false, false, 2⟩] []
    (by simp) (by simp [Attrs.getNamed])
  rw [h1]
  rfl

end VastProof
